import Mathlib

/-!
Verification development for the scraper repository: a shallow embedding of
the URL normalizer/filter (`scraper/utils/url_filter.py`), the RAG content
chunker (`scraper/extractors/rag.py`) and the breadth-first crawl engine
(`scraper/core/crawler.py`), together with theorems checking the
specification's claims against these embeddings.
-/

namespace Scraper

/-! ### URL parsing

`URLFilter` delegates to `urllib.parse.urlparse` / `geturl`.  We embed the
subset of CPython's `urlsplit` / `urlunsplit` / `urlparse` / `urlunparse`
algorithms that those calls exercise, working over `List Char`.
-/

/-- Characters allowed in a URL scheme (CPython `scheme_chars`). -/
def schemeChar (c : Char) : Bool :=
  c.isAlpha || c.isDigit || c == '+' || c == '-' || c == '.'

/-- Split a list at the first occurrence of `c`; `none` when `c` is absent.
Mirrors Python's `str.split(c, 1)` / `str.find(c)`. -/
def breakAtChar (c : Char) : List Char → Option (List Char × List Char)
  | [] => none
  | x :: xs =>
    if x = c then some ([], xs)
    else (breakAtChar c xs).map (fun p => (x :: p.1, p.2))

/-- CPython `urlsplit` scheme extraction: a scheme is present when the first
`:` has a nonempty prefix whose head is an (ASCII) letter and whose characters
are all `scheme_chars`; the scheme is lowercased. -/
def extractScheme (l : List Char) : List Char × List Char :=
  match breakAtChar ':' l with
  | none => ([], l)
  | some (pre, post) =>
    match pre with
    | [] => ([], l)
    | c :: _ =>
      if c.isAlpha ∧ pre.all schemeChar then (pre.map Char.toLower, post)
      else ([], l)

/-- A character that terminates the netloc portion (`/`, `?` or `#`). -/
def netlocEnd (c : Char) : Bool := c == '/' || c == '?' || c == '#'

/-- CPython `urlsplit` netloc extraction: after a leading `//`, the netloc
runs until the next `/`, `?` or `#` (the delimiter stays with the rest). -/
def extractNetloc : List Char → List Char × List Char
  | '/' :: '/' :: rest => (rest.takeWhile (fun c => ¬ netlocEnd c), rest.dropWhile (fun c => ¬ netlocEnd c))
  | l => ([], l)

/-- Split off the fragment at the first `#` (or nothing when absent). -/
def splitFragment (l : List Char) : List Char × List Char :=
  match breakAtChar '#' l with
  | none => (l, [])
  | some (a, b) => (a, b)

/-- Split off the query at the first `?` (or nothing when absent). -/
def splitQuery (l : List Char) : List Char × List Char :=
  match breakAtChar '?' l with
  | none => (l, [])
  | some (a, b) => (a, b)

/-- Schemes for which `urlparse` separates `;params` from the path
(CPython `uses_params`). -/
def usesParams : List String :=
  ["", "ftp", "hdl", "prospero", "http", "imap", "https", "shttp", "rtsp",
   "rtsps", "rtspu", "sip", "sips", "mms", "sftp", "tel"]

/-- Schemes for which `urlunsplit` re-adds a `//` marker when the netloc is
empty (CPython `uses_netloc`). -/
def usesNetloc : List String :=
  ["", "ftp", "http", "gopher", "nntp", "telnet", "imap", "wais", "file",
   "mms", "https", "shttp", "snews", "prospero", "rtsp", "rtsps", "rtspu",
   "rsync", "svn", "svn+ssh", "sftp", "nfs", "git", "git+ssh", "ws", "wss"]

/-- CPython `_splitparams`: split `;params` off the last path segment.  With a
`/` in the path the `;` is searched only after the last `/`. -/
def splitparams (p : List Char) : List Char × List Char :=
  if '/' ∈ p then
    let afterSlash := (p.reverse.takeWhile (· ≠ '/')).reverse
    match breakAtChar ';' afterSlash with
    | none => (p, [])
    | some (a, b) => (p.take (p.length - afterSlash.length) ++ a, b)
  else
    match breakAtChar ';' p with
    | none => (p, [])
    | some (a, b) => (a, b)

/-- The result of `urlparse`: scheme, netloc, path, params, query, fragment. -/
structure UrlParts where
  scheme : List Char
  netloc : List Char
  path : List Char
  params : List Char
  query : List Char
  fragment : List Char
  deriving DecidableEq, Repr

/-- Embedding of CPython `urlparse` (scheme, then netloc after `//`, then
fragment at the first `#`, then query at the first `?`, then `;params` for
schemes in `uses_params`). -/
def urlparseL (l : List Char) : UrlParts :=
  let s := extractScheme l
  let n := extractNetloc s.2
  let f := splitFragment n.2
  let q := splitQuery f.1
  let pp :=
    if String.mk s.1 ∈ usesParams ∧ ';' ∈ q.1 then splitparams q.1
    else (q.1, [])
  ⟨s.1, n.1, pp.1, pp.2, q.2, f.2⟩

/-- Embedding of CPython 3.11 `urlunsplit`: the `//` marker is emitted when
the netloc is nonempty, or when the scheme is a `uses_netloc` scheme and the
path does not already begin with `//`. -/
def urlunsplitL (scheme netloc path query fragment : List Char) : List Char :=
  let url := path
  let url :=
    if netloc ≠ [] ∨ (scheme ≠ [] ∧ String.mk scheme ∈ usesNetloc ∧ url.take 2 ≠ ['/', '/']) then
      '/' :: '/' :: (netloc ++ (if url ≠ [] ∧ url.take 1 ≠ ['/'] then '/' :: url else url))
    else url
  let url := if scheme ≠ [] then scheme ++ ':' :: url else url
  let url := if query ≠ [] then url ++ '?' :: query else url
  if fragment ≠ [] then url ++ '#' :: fragment else url

/-- Embedding of CPython `urlunparse` (rejoin `;params`, then `urlunsplit`);
this is what `ParseResult.geturl()` computes. -/
def urlunparseL (u : UrlParts) : List Char :=
  let path := if u.params ≠ [] then u.path ++ ';' :: u.params else u.path
  urlunsplitL u.scheme u.netloc path u.query u.fragment

/-- Python `str.rstrip('/')`: drop every trailing `/`. -/
def rstripSlash (l : List Char) : List Char :=
  (l.reverse.dropWhile (· = '/')).reverse

/-- `URLFilter.normalize_url` on character lists: drop the fragment and
re-serialize; when the result ends in `/` while the parsed path is not exactly
`"/"`, strip all trailing slashes. -/
def normalizeL (l : List Char) : List Char :=
  let parsed := urlparseL l
  let normalized := urlunparseL { parsed with fragment := [] }
  if normalized.getLast? = some '/' ∧ parsed.path ≠ ['/'] then rstripSlash normalized
  else normalized

/-- `URLFilter.normalize_url`. -/
def normalize_url (s : String) : String := String.mk (normalizeL s.data)

/-- `URLFilter.is_valid_url`: the parsed scheme is `http` or `https`. -/
def is_valid_url (s : String) : Bool :=
  String.mk (urlparseL s.data).scheme ∈ ["http", "https"]

/-- `URLFilter.get_domain`: `f"{scheme}://{netloc}"`. -/
def get_domain (s : String) : String :=
  let p := urlparseL s.data
  String.mk (p.scheme ++ ':' :: '/' :: '/' :: p.netloc)

/-- Python `str.startswith(pre)`. -/
def pyStartsWith (s pre : String) : Bool := pre.data.isPrefixOf s.data

/-- Python `str.endswith(suf)`. -/
def pyEndsWith (s suf : String) : Bool := suf.data.isSuffixOf s.data

/-- `URLFilter.same_domain`. -/
def same_domain (url1 url2 : String) : Bool :=
  if ¬ (pyStartsWith url2 "http://" || pyStartsWith url2 "https://") then
    let domain1 := get_domain url1
    pyEndsWith domain1 url2 || domain1 == "https://" ++ url2 || domain1 == "http://" ++ url2
  else
    get_domain url1 == get_domain url2

/-! ### Content chunker

Embedding of `RAGExtractor` (`scraper/extractors/rag.py`).  The DOM
collaborator is abstracted away: the input is the page title, the text of the
first `h1` under the content root (when present), and the document-order list
of `h2`/`h3`/`p`/`ul`/`ol`/`pre` elements, each given by its tag and its
`get_text(strip=True)` text.
-/

/-- Tags returned by `main_content.find_all(['h2', 'h3', 'p', 'ul', 'ol', 'pre'])`. -/
inductive Tag
  | h2 | h3 | p | ul | ol | pre
  deriving DecidableEq, Repr

/-- One block element: its tag and its stripped visible text. -/
structure Elem where
  tag : Tag
  text : String
  deriving DecidableEq, Repr

/-- The chunker's working state `current_section`. -/
structure Sec where
  h1 : String
  h2 : String
  h3 : String
  content : List String
  deriving DecidableEq, Repr

/-- An emitted chunk record. -/
structure Chunk where
  text : String
  title : String
  page_title : String
  h1 : String
  h2 : String
  h3 : String
  url : String
  source : String
  depth : Nat
  char_count : Nat
  chunk_id : String
  deriving DecidableEq, Repr

/-- Python `' '.join(xs)`: the pieces interleaved with single spaces. -/
def joinSpace : List String → String
  | [] => ""
  | [x] => x
  | x :: xs => x ++ " " ++ joinSpace xs

/-- `[p for p in [section['h1'], section['h2'], section['h3']] if p]`. -/
def titleParts (s : Sec) : List String :=
  [s.h1, s.h2, s.h3].filter (fun p => p ≠ "")

/-- `RAGExtractor._create_chunk_from_text`. -/
def create_chunk_from_text (text : String) (s : Sec) (url page_title : String)
    (depth : Nat) : Chunk :=
  let parts := titleParts s
  { text := text
    title := if parts ≠ [] then String.intercalate " > " parts else page_title
    page_title := page_title
    h1 := s.h1, h2 := s.h2, h3 := s.h3
    url := url, source := url
    depth := depth
    char_count := text.length
    chunk_id := url ++ "#" ++ String.intercalate "-" parts ++ "-split" }

/-- `RAGExtractor._create_chunk`. -/
def create_chunk (s : Sec) (url page_title : String) (depth : Nat) : Chunk :=
  let content_text := joinSpace s.content
  let parts := titleParts s
  { text := content_text
    title := if parts ≠ [] then String.intercalate " > " parts else page_title
    page_title := page_title
    h1 := s.h1, h2 := s.h2, h3 := s.h3
    url := url, source := url
    depth := depth
    char_count := content_text.length
    chunk_id := url ++ "#" ++ String.intercalate "-" parts }

/-- Split a character list at every occurrence of the two-character
separator `". "`, scanning left to right (Python `str.split('. ')`, the only
separator `_split_large_content` uses). -/
def splitDotSpace : List Char → List (List Char)
  | [] => [[]]
  | '.' :: ' ' :: rest => [] :: splitDotSpace rest
  | c :: rest =>
    match splitDotSpace rest with
    | [] => [[c]]
    | l :: ls => (c :: l) :: ls

/-- Python `large_text.split('. ')`. -/
def pySplitOnDotSpace (s : String) : List String :=
  (splitDotSpace s.data).map String.mk

/-- Split a character list at every whitespace character (keeping empty
pieces between adjacent separators). -/
def splitWsChar : List Char → List (List Char)
  | [] => [[]]
  | c :: rest =>
    if c.isWhitespace then [] :: splitWsChar rest
    else
      match splitWsChar rest with
      | [] => [[c]]
      | l :: ls => (c :: l) :: ls

/-- Python `str.split()` with no argument: split on whitespace,
dropping empty pieces. -/
def pySplitWs (s : String) : List String :=
  ((splitWsChar s.data).filter (fun w => w ≠ [])).map String.mk

/-- Python `str.strip()`: drop leading and trailing whitespace. -/
def pyStrip (s : String) : String :=
  String.mk (((s.data.dropWhile Char.isWhitespace).reverse.dropWhile Char.isWhitespace).reverse)

/-- The inner word loop of `_split_large_content` (splitting one oversized
sentence into word-bounded chunks).  Returns the chunks emitted so far
together with the final `word_chunk` and `word_length`. -/
def word_loop (target : Nat) (s : Sec) (url page_title : String) (depth : Nat) :
    List String → List String → Nat → List Chunk → List Chunk × List String × Nat
  | [], wordChunk, wordLength, chunks => (chunks, wordChunk, wordLength)
  | w :: ws, wordChunk, wordLength, chunks =>
    let wordLength := wordLength + w.length + 1
    if wordLength > target ∧ wordChunk ≠ [] then
      word_loop target s url page_title depth ws [w] (w.length + 1)
        (chunks ++ [create_chunk_from_text (joinSpace wordChunk) s url page_title depth])
    else
      word_loop target s url page_title depth ws (wordChunk ++ [w]) wordLength chunks

/-- The sentence loop of `_split_large_content`: accumulate sentences into
chunks bounded by the size target, delegating oversized sentences to
`word_loop`, and flush the remainder at the end. -/
def sentence_loop (target : Nat) (s : Sec) (url page_title : String) (depth : Nat) :
    List String → List String → Nat → List Chunk → List Chunk
  | [], cur, _, chunks =>
    if cur ≠ [] then
      chunks ++ [create_chunk_from_text (joinSpace cur) s url page_title depth]
    else chunks
  | sent :: rest, cur, curLen, chunks =>
    let sent := pyStrip sent
    if sent = "" then sentence_loop target s url page_title depth rest cur curLen chunks
    else
      let sent :=
        if ¬ (pyEndsWith sent "." ∨ pyEndsWith sent "!" ∨ pyEndsWith sent "?") then sent ++ "."
        else sent
      let sentLen := sent.length
      let flushed :=
        if curLen + sentLen > target ∧ cur ≠ [] then
          (([] : List String), 0,
            chunks ++ [create_chunk_from_text (joinSpace cur) s url page_title depth])
        else (cur, curLen, chunks)
      let cur := flushed.1
      let curLen := flushed.2.1
      let chunks := flushed.2.2
      if sentLen > target then
        let wl := word_loop target s url page_title depth (pySplitWs sent) [] 0 chunks
        let chunks := wl.1
        let wordChunk := wl.2.1
        let wordLength := wl.2.2
        if wordChunk ≠ [] then
          sentence_loop target s url page_title depth rest (cur ++ wordChunk)
            (curLen + wordLength) chunks
        else
          sentence_loop target s url page_title depth rest cur curLen chunks
      else
        sentence_loop target s url page_title depth rest (cur ++ [sent]) (curLen + sentLen) chunks

/-- `RAGExtractor._split_large_content`. -/
def split_large_content (target : Nat) (s : Sec) (largeText : String)
    (url page_title : String) (depth : Nat) : List Chunk :=
  let chunks := if s.content ≠ [] then [create_chunk s url page_title depth] else []
  sentence_loop target s url page_title depth (pySplitOnDotSpace largeText) [] 0 chunks

/-- For `pre` elements the text is wrapped as a code block. -/
def procText (e : Elem) : String :=
  if e.tag = .pre then "[CODE]\n" ++ e.text ++ "\n[/CODE]" else e.text

/-- One iteration of the `for element in main_content.find_all(...)` loop of
`RAGExtractor.extract`, transforming `(current_section, chunks)`. -/
def chunk_step (target : Nat) (url page_title : String) (depth : Nat)
    (st : Sec × List Chunk) (e : Elem) : Sec × List Chunk :=
  let s := st.1
  let chunks := st.2
  match e.tag with
  | .h2 =>
    let chunks :=
      if s.content ≠ [] then chunks ++ [create_chunk s url page_title depth] else chunks
    ({ h1 := s.h1, h2 := e.text, h3 := "", content := [] }, chunks)
  | .h3 =>
    if (joinSpace s.content).length > target then
      ({ s with h3 := e.text, content := [] },
        chunks ++ [create_chunk s url page_title depth])
    else
      ({ s with h3 := e.text }, chunks)
  | _ =>
    if e.text = "" then (s, chunks)
    else
      let text := procText e
      let s := { s with content := s.content ++ [text] }
      if (joinSpace s.content).length > target then
        if text.length > target then
          ({ s with content := [] },
            chunks ++ split_large_content target s text url page_title depth)
        else
          ({ s with content := [] },
            chunks ++ [create_chunk s url page_title depth])
      else (s, chunks)

/-- `RAGExtractor.extract`: fold the element list through `chunk_step`
starting from the section seeded with the first `h1`'s text, then flush the
final section when it still holds content. -/
def rag_extract (target : Nat) (url page_title : String) (h1 : Option String)
    (elems : List Elem) (depth : Nat) : List Chunk :=
  let sec0 : Sec := { h1 := h1.getD "", h2 := "", h3 := "", content := [] }
  let fin := elems.foldl (chunk_step target url page_title depth) (sec0, [])
  if fin.1.content ≠ [] then
    fin.2 ++ [create_chunk fin.1 url page_title depth]
  else fin.2

/-! ### Crawl traversal engine

Embedding of `WebCrawler` (`scraper/core/crawler.py`).  The external fetch
collaborator is a map `web : String → Option Page`: `none` is a fetch
failure, and a `Page` carries the link list that `extract_links` would
return.  The pluggable extractor is a function that may fail (`none` models a
raised extraction error, which the crawler swallows) or return extracted
records.  Besides the four state collections of the source, the state carries
write-only instrumentation (`popLog`, `visitLog`, `discLog`) recording the
order of frontier pops, of visits (with the depth passed in the metadata),
and of accepted link discoveries (with depth and discovering page).
-/

/-- A fetched page: the links `extract_links` yields for it.  (Any further
page content an extractor reads is representable through the extractor's
dependence on the URL, since the web map is keyed by URL.) -/
structure Page where
  links : List String
  deriving Repr

/-- Arguments of `WebCrawler.crawl` other than the start URL. -/
structure CrawlParams where
  maxDepth : Option Nat
  maxPages : Option Nat
  stayWithinDomain : Bool
  urlFilter : Option (String → Bool)

/-- Crawler state: the four collections of `WebCrawler` plus instrumentation. -/
structure CState (α : Type) where
  visited : List String
  toVisit : List (String × Nat)
  collectedUrls : List String
  collectedData : List α
  popLog : List (String × Nat)
  visitLog : List (String × Nat)
  discLog : List (String × Nat × String)

/-- The empty crawler state. -/
def emptyCState (α : Type) : CState α :=
  ⟨[], [], [], [], [], [], []⟩

/-- `WebCrawler._reset` (also clears the instrumentation). -/
def creset {α : Type} (_st : CState α) : CState α := emptyCState α

/-- Python truthiness check `if max_pages and len(self.visited_urls) >= max_pages`
(`max_pages = 0` is falsy, so `0` disables the limit). -/
def maxPagesHit (maxPages : Option Nat) (visitedCount : Nat) : Bool :=
  match maxPages with
  | none => false
  | some n => n ≠ 0 ∧ visitedCount ≥ n

/-- `max_depth is not None and depth > max_depth`. -/
def depthExceeded (maxDepth : Option Nat) (depth : Nat) : Bool :=
  match maxDepth with
  | none => false
  | some m => depth > m

/-- `url_filter and not url_filter(url)`. -/
def filterRejects (filt : Option (String → Bool)) (url : String) : Bool :=
  match filt with
  | none => false
  | some f => ¬ f url

/-- `WebCrawler._should_visit`. -/
def should_visit (visited : List String) (url : String) (baseDomain : String)
    (stay : Bool) (filt : Option (String → Bool)) : Bool :=
  if url ∈ visited then false
  else if ¬ is_valid_url url then false
  else if stay ∧ ¬ same_domain url baseDomain then false
  else if filterRejects filt url then false
  else true

/-- Result of one iteration of the crawl loop: stop, or continue from a new
state. -/
inductive StepRes (α : Type)
  | halt (st : CState α)
  | next (st : CState α)

/-- One iteration of the `while self.to_visit` loop of `WebCrawler.crawl`. -/
def crawl_step {α : Type} (web : String → Option Page)
    (ext : Option (String → Page → Nat → Option (List α)))
    (params : CrawlParams) (baseDomain : String) (st : CState α) : StepRes α :=
  match st.toVisit with
  | [] => .halt st
  | (u, d) :: rest =>
    if maxPagesHit params.maxPages st.visited.length then .halt st
    else
      let st := { st with toVisit := rest, popLog := st.popLog ++ [(u, d)] }
      if depthExceeded params.maxDepth d then .next st
      else if u ∈ st.visited then .next st
      else if filterRejects params.urlFilter u then .next st
      else
        let st := { st with
          visited := u :: st.visited
          collectedUrls := st.collectedUrls ++ [u]
          visitLog := st.visitLog ++ [(u, d)] }
        match web u with
        | none => .next st
        | some page =>
          let st :=
            match ext with
            | none => st
            | some f =>
              match f u page d with
              | none => st
              | some records => { st with collectedData := st.collectedData ++ records }
          let newLinks := (page.links.map normalize_url).filter
            (fun l => should_visit st.visited l baseDomain params.stayWithinDomain params.urlFilter)
          .next { st with
            toVisit := st.toVisit ++ newLinks.map (fun l => (l, d + 1))
            discLog := st.discLog ++ newLinks.map (fun l => (l, d + 1, u)) }

/-- The crawl loop, driven by explicit fuel. -/
def crawl_loop {α : Type} (web : String → Option Page)
    (ext : Option (String → Page → Nat → Option (List α)))
    (params : CrawlParams) (baseDomain : String) :
    Nat → CState α → CState α
  | 0, st => st
  | fuel + 1, st =>
    match crawl_step web ext params baseDomain st with
    | .halt st => st
    | .next st => crawl_loop web ext params baseDomain fuel st

/-- The `stats` dictionary of `WebCrawler.get_results`. -/
structure CrawlStats where
  visited_count : Nat
  queued_count : Nat
  collected_count : Nat
  data_count : Nat
  deriving DecidableEq, Repr

/-- `WebCrawler.get_results`. -/
structure CrawlResults (α : Type) where
  urls : List String
  data : List α
  stats : CrawlStats

/-- Build the results dictionary from a state. -/
def get_results {α : Type} (st : CState α) : CrawlResults α :=
  { urls := st.collectedUrls
    data := st.collectedData
    stats :=
      { visited_count := st.visited.length
        queued_count := st.toVisit.length
        collected_count := st.collectedUrls.length
        data_count := st.collectedData.length } }

/-- `WebCrawler.crawl`: reset all state, normalize the start URL, raise on an
invalid one, then run the loop and return the results.  The final state is
returned alongside the outcome (the Python object keeps it in `self`). -/
def crawl {α : Type} (fuel : Nat) (web : String → Option Page)
    (ext : Option (String → Page → Nat → Option (List α)))
    (startUrl : String) (params : CrawlParams) (st : CState α) :
    Except String (CrawlResults α) × CState α :=
  let st := creset st
  let startUrl := normalize_url startUrl
  if ¬ is_valid_url startUrl then
    (.error ("Invalid start URL: " ++ startUrl), st)
  else
    let baseDomain := get_domain startUrl
    let st := { st with toVisit := [(startUrl, 0)] }
    let fin := crawl_loop web ext params baseDomain fuel st
    (.ok (get_results fin), fin)

/-- The enqueue log of a crawl from `start`: the start entry followed by all
accepted link discoveries in order.  `popLog ++ toVisit` always equals this
list, so the frontier is consumed in exactly this (FIFO) order. -/
def enqLog {α : Type} (start : String) (st : CState α) : List (String × Nat) :=
  (start, 0) :: st.discLog.map (fun t => (t.1, t.2.1))

/-- The state carried by a step result. -/
def stepState {α : Type} : StepRes α → CState α
  | .halt st => st
  | .next st => st

/-- Whether a step result continues the loop. -/
def isNext {α : Type} : StepRes α → Bool
  | .halt _ => false
  | .next _ => true

/-- Project the stats out of a crawl outcome (`none` when the crawl raised). -/
def stats_of {α : Type} : Except String (CrawlResults α) → Option CrawlStats
  | .ok r => some r.stats
  | .error _ => none

/-- Invariant of the crawl loop tying the ghost logs together: the pop log
followed by the frontier is exactly the enqueue log (FIFO); enqueue depths
are non-decreasing (breadth-first); every frontier depth is within one of the
head's; every visit's depth is the first-discovery depth of its URL in the
enqueue log; every popped entry that was not visited at pop time was skipped
for a stable reason; and the visit log is a sublist of the pop log. -/
def CrawlInv {α : Type} (params : CrawlParams) (start : String)
    (st : CState α) : Prop :=
  st.popLog ++ st.toVisit = enqLog start st ∧
  List.Sorted (fun a b : Nat => a ≤ b) ((enqLog start st).map Prod.snd) ∧
  (∀ p ∈ st.toVisit, ∀ q, st.toVisit.head? = some q → p.2 ≤ q.2 + 1) ∧
  (∀ p ∈ st.visitLog, List.lookup p.1 (enqLog start st) = some p.2) ∧
  (∀ p ∈ st.popLog,
    p.1 ∈ st.visited ∨ depthExceeded params.maxDepth p.2 = true ∨
      filterRejects params.urlFilter p.1 = true) ∧
  List.Sublist st.visitLog st.popLog

/-! ### Chunker lemmas

Every chunk the extractor emits is built by `create_chunk` or
`create_chunk_from_text`; the field invariants of the two constructors
therefore hold of every emitted chunk.
-/

/-- `c` was built by one of the two chunk constructors, for this page. -/
def chunkCreated (url page_title : String) (depth : Nat) (c : Chunk) : Prop :=
  (∃ sec, c = create_chunk sec url page_title depth) ∨
    (∃ t sec, c = create_chunk_from_text t sec url page_title depth)

theorem created_append_single {url pt : String} {d : Nat} {l : List Chunk} {x : Chunk}
    (hl : ∀ c ∈ l, chunkCreated url pt d c) (hx : chunkCreated url pt d x) :
    ∀ c ∈ l ++ [x], chunkCreated url pt d c := by
  intro c hc
  rcases List.mem_append.1 hc with h' | h'
  · exact hl c h'
  · rcases List.mem_singleton.1 h' with rfl
    exact hx

theorem word_loop_created (target : Nat) (s : Sec) (url pt : String) (d : Nat) :
    ∀ (ws wc : List String) (wl : Nat) (chunks : List Chunk),
      (∀ c ∈ chunks, chunkCreated url pt d c) →
      ∀ c ∈ (word_loop target s url pt d ws wc wl chunks).1, chunkCreated url pt d c := by
  intro ws
  induction ws with
  | nil =>
    intro wc wl chunks h c hc
    simpa [word_loop] using h c hc
  | cons w ws ih =>
    intro wc wl chunks h c hc
    rw [word_loop] at hc
    split at hc
    · exact ih _ _ _ (created_append_single h (Or.inr ⟨_, _, rfl⟩)) c hc
    · exact ih _ _ _ h c hc

theorem sentence_loop_created (target : Nat) (s : Sec) (url pt : String) (d : Nat) :
    ∀ (sents cur : List String) (curLen : Nat) (chunks : List Chunk),
      (∀ c ∈ chunks, chunkCreated url pt d c) →
      ∀ c ∈ sentence_loop target s url pt d sents cur curLen chunks, chunkCreated url pt d c := by
  intro sents
  induction sents with
  | nil =>
    intro cur curLen chunks h c hc
    rw [sentence_loop] at hc
    split at hc
    · exact created_append_single h (Or.inr ⟨_, _, rfl⟩) c hc
    · exact h c hc
  | cons sent rest ih =>
    intro cur curLen chunks h c hc
    rw [sentence_loop] at hc
    split at hc
    · exact ih _ _ _ h c hc
    · dsimp only at hc
      repeat' split at hc
      all_goals
        refine ih _ _ _ ?_ c hc
      all_goals
        first
        | exact h
        | exact created_append_single h (Or.inr ⟨_, _, rfl⟩)
        | exact word_loop_created target s url pt d _ _ _ _ h
        | exact word_loop_created target s url pt d _ _ _ _
            (created_append_single h (Or.inr ⟨_, _, rfl⟩))

theorem split_large_content_created (target : Nat) (s : Sec) (largeText : String)
    (url pt : String) (d : Nat) :
    ∀ c ∈ split_large_content target s largeText url pt d, chunkCreated url pt d c := by
  intro c hc
  refine sentence_loop_created target s url pt d _ _ _ _ ?_ c hc
  intro c' hc'
  split at hc'
  · rcases List.mem_singleton.1 hc' with rfl
    exact Or.inl ⟨_, rfl⟩
  · simp at hc'

theorem chunk_step_created (target : Nat) (url pt : String) (d : Nat)
    (st : Sec × List Chunk) (e : Elem)
    (h : ∀ c ∈ st.2, chunkCreated url pt d c) :
    ∀ c ∈ (chunk_step target url pt d st e).2, chunkCreated url pt d c := by
  intro c hc
  rcases st with ⟨s, chunks⟩
  dsimp only [chunk_step] at hc
  rcases e with ⟨tag, text⟩
  cases tag <;> dsimp only at hc
  case h2 =>
    split at hc
    · rcases List.mem_append.1 hc with h' | h'
      · exact h c h'
      · rcases List.mem_singleton.1 h' with rfl
        exact Or.inl ⟨_, rfl⟩
    · exact h c hc
  case h3 =>
    split at hc
    · rcases List.mem_append.1 hc with h' | h'
      · exact h c h'
      · rcases List.mem_singleton.1 h' with rfl
        exact Or.inl ⟨_, rfl⟩
    · exact h c hc
  all_goals
    split at hc
    · exact h c hc
    · split at hc
      · split at hc
        · rcases List.mem_append.1 hc with h' | h'
          · exact h c h'
          · exact split_large_content_created _ _ _ _ _ _ c h'
        · rcases List.mem_append.1 hc with h' | h'
          · exact h c h'
          · rcases List.mem_singleton.1 h' with rfl
            exact Or.inl ⟨_, rfl⟩
      · exact h c hc

theorem rag_extract_created (target : Nat) (url pt : String) (h1 : Option String)
    (elems : List Elem) (d : Nat) :
    ∀ c ∈ rag_extract target url pt h1 elems d, chunkCreated url pt d c := by
  have main : ∀ (es : List Elem) (st : Sec × List Chunk),
      (∀ c ∈ st.2, chunkCreated url pt d c) →
      ∀ c ∈ (es.foldl (chunk_step target url pt d) st).2, chunkCreated url pt d c := by
    intro es
    induction es with
    | nil => intro st h c hc; exact h c hc
    | cons e es ih =>
      intro st h c hc
      exact ih _ (chunk_step_created target url pt d st e h) c hc
  intro c hc
  dsimp only [rag_extract] at hc
  split at hc
  · rcases List.mem_append.1 hc with h' | h'
    · exact main _ _ (by intro c' hc'; simp at hc') c h'
    · rcases List.mem_singleton.1 h' with rfl
      exact Or.inl ⟨_, rfl⟩
  · exact main _ _ (by intro c' hc'; simp at hc') c hc

/-! ### joinSpace length facts -/

theorem joinSpace_cons_ne (x : String) (xs : List String) (h : xs ≠ []) :
    joinSpace (x :: xs) = x ++ " " ++ joinSpace xs := by
  cases xs with
  | nil => exact absurd rfl h
  | cons y t => rfl

theorem joinSpace_length_le_append (a b : List String) :
    (joinSpace a).length ≤ (joinSpace (a ++ b)).length := by
  induction a with
  | nil => exact Nat.zero_le _
  | cons x a ih =>
    cases a with
    | nil =>
      cases b with
      | nil => exact Nat.le_refl _
      | cons y bs =>
        rw [List.singleton_append, joinSpace_cons_ne x (y :: bs) (by simp),
          String.length_append, String.length_append,
          show joinSpace [x] = x from rfl]
        omega
    | cons z t =>
      rw [joinSpace_cons_ne x (z :: t) (by simp), List.cons_append,
        joinSpace_cons_ne x (z :: t ++ b) (by simp), String.length_append,
        String.length_append, String.length_append, String.length_append]
      have h := ih
      rw [List.cons_append] at h
      omega

theorem length_le_joinSpace_append_single (a : List String) (t : String) :
    t.length ≤ (joinSpace (a ++ [t])).length := by
  induction a with
  | nil => exact Nat.le_refl _
  | cons x a ih =>
    rw [List.cons_append, joinSpace_cons_ne x (a ++ [t]) (by simp),
      String.length_append, String.length_append]
    omega

/-! ### Claims C7 and C5: per-chunk field invariants -/

/-- C7: for every chunk emitted by the chunker, `char_count` equals the length
of the chunk's `text`, and `title` equals the `" > "`-joined sequence of the
non-empty entries among `[h1, h2, h3]`, falling back to `page_title` when all
three are empty. -/
theorem C7_chunk_invariants (target : Nat) (url pt : String) (h1 : Option String)
    (elems : List Elem) (d : Nat) :
    ∀ c ∈ rag_extract target url pt h1 elems d,
      c.char_count = c.text.length ∧
        c.title =
          (if [c.h1, c.h2, c.h3].filter (fun p => p ≠ "") ≠ [] then
            String.intercalate " > " ([c.h1, c.h2, c.h3].filter (fun p => p ≠ ""))
          else c.page_title) := by
  intro c hc
  rcases rag_extract_created target url pt h1 elems d c hc with ⟨sec, rfl⟩ | ⟨t, sec, rfl⟩
  · exact ⟨rfl, rfl⟩
  · exact ⟨rfl, rfl⟩

theorem C7_witness :
    (create_chunk ⟨"", "", "", ["hi"]⟩ "u" "T" 0).char_count
        = (create_chunk ⟨"", "", "", ["hi"]⟩ "u" "T" 0).text.length ∧
      (create_chunk ⟨"", "", "", ["hi"]⟩ "u" "T" 0).title = "T" := by
  have h := C7_chunk_invariants 500 "u" "T" none [⟨Tag.p, "hi"⟩] 0
    (create_chunk ⟨"", "", "", ["hi"]⟩ "u" "T" 0) (by decide)
  refine ⟨h.1, ?_⟩
  rw [h.2]
  decide

/-- C5 counterexample: with a single oversized paragraph the chunker also
emits sentence-split chunks, and those carry a `chunk_id` equal to the page
URL, `#`, the joined heading parts, and an extra `-split` suffix — not the
plain `url#parts` the claim states for every chunk. -/
theorem C5_counterexample :
    ((rag_extract 5 "u" "T" none [⟨Tag.p, "aaaa. bbbb. cccc."⟩] 0).get? 1).map Chunk.chunk_id
        = some "u#-split" ∧
      ((rag_extract 5 "u" "T" none [⟨Tag.p, "aaaa. bbbb. cccc."⟩] 0).get? 1).map
          (fun c => c.url ++ "#" ++ String.intercalate "-" ([c.h1, c.h2, c.h3].filter (fun p => p ≠ "")))
        = some "u#" ∧
      ("u#-split" : String) ≠ "u#" := by
  refine ⟨by decide, by decide, by decide⟩

/-- C5 amended: every chunk emitted by the chunker has `chunk_id` equal to the
page URL followed by `#` and the `-`-joined non-empty heading parts, either
plain (chunks emitted whole by `_create_chunk`) or with a trailing `-split`
marker (chunks emitted by the sentence/word splitter via
`_create_chunk_from_text`). -/
theorem C5_chunk_id_amended (target : Nat) (url pt : String) (h1 : Option String)
    (elems : List Elem) (d : Nat) :
    ∀ c ∈ rag_extract target url pt h1 elems d,
      c.chunk_id
          = c.url ++ "#" ++ String.intercalate "-" ([c.h1, c.h2, c.h3].filter (fun p => p ≠ "")) ∨
        c.chunk_id
          = c.url ++ "#" ++ String.intercalate "-" ([c.h1, c.h2, c.h3].filter (fun p => p ≠ ""))
              ++ "-split" := by
  intro c hc
  rcases rag_extract_created target url pt h1 elems d c hc with ⟨sec, rfl⟩ | ⟨t, sec, rfl⟩
  · exact Or.inl rfl
  · exact Or.inr rfl

theorem C5_witness :
    (create_chunk ⟨"A", "", "", ["z"]⟩ "u" "T" 0).chunk_id = "u#A" ∨
      (create_chunk ⟨"A", "", "", ["z"]⟩ "u" "T" 0).chunk_id = "u#A-split" := by
  rcases C5_chunk_id_amended 500 "u" "T" (some "A") [⟨Tag.p, "z"⟩] 0
      (create_chunk ⟨"A", "", "", ["z"]⟩ "u" "T" 0) (by decide) with h | h
  · exact Or.inl (by rw [h]; decide)
  · exact Or.inr (by rw [h]; decide)

/-! ### Claim C6: documents without headings -/

/-- The texts the extractor appends to `section['content']` while walking the
elements: the non-empty texts of `p`/`ul`/`ol`/`pre` elements, `pre` texts
wrapped as code blocks (heading elements contribute no content). -/
def blockTexts : List Elem → List String
  | [] => []
  | e :: es =>
    match e.tag with
    | Tag.h2 => blockTexts es
    | Tag.h3 => blockTexts es
    | _ => if e.text = "" then blockTexts es else procText e :: blockTexts es

theorem blockTexts_cons_block (e : Elem) (es : List Elem)
    (h2 : e.tag ≠ Tag.h2) (h3 : e.tag ≠ Tag.h3) :
    blockTexts (e :: es)
      = if e.text = "" then blockTexts es else procText e :: blockTexts es := by
  rcases e with ⟨tag, text⟩
  cases tag <;> first | exact absurd rfl h2 | exact absurd rfl h3 | rfl

theorem chunk_step_block (target : Nat) (url pt : String) (d : Nat) (s : Sec)
    (chunks : List Chunk) (e : Elem) (h2 : e.tag ≠ Tag.h2) (h3 : e.tag ≠ Tag.h3) :
    chunk_step target url pt d (s, chunks) e
      = if e.text = "" then (s, chunks)
        else
          let text := procText e
          let s' := { s with content := s.content ++ [text] }
          if (joinSpace s'.content).length > target then
            if text.length > target then
              ({ s' with content := [] }, chunks ++ split_large_content target s' text url pt d)
            else ({ s' with content := [] }, chunks ++ [create_chunk s' url pt d])
          else (s', chunks) := by
  rcases e with ⟨tag, text⟩
  cases tag <;> first | exact absurd rfl h2 | exact absurd rfl h3 | rfl

theorem chunk_fold_no_heading (target : Nat) (url pt : String) (d : Nat) :
    ∀ (es : List Elem) (acc : List String),
      (∀ e ∈ es, e.tag ≠ Tag.h2 ∧ e.tag ≠ Tag.h3) →
      (joinSpace (acc ++ blockTexts es)).length ≤ target →
      es.foldl (chunk_step target url pt d) (⟨"", "", "", acc⟩, [])
        = (⟨"", "", "", acc ++ blockTexts es⟩, []) := by
  intro es
  induction es with
  | nil => intro acc _ _; simp [blockTexts]
  | cons e es ih =>
    intro acc hno hlen
    have h2 := (hno e (List.mem_cons_self e es)).1
    have h3 := (hno e (List.mem_cons_self e es)).2
    have hno' : ∀ x ∈ es, x.tag ≠ Tag.h2 ∧ x.tag ≠ Tag.h3 :=
      fun x hx => hno x (List.mem_cons_of_mem _ hx)
    rw [blockTexts_cons_block e es h2 h3] at hlen
    rw [List.foldl_cons, chunk_step_block target url pt d _ _ e h2 h3,
      blockTexts_cons_block e es h2 h3]
    by_cases ht : e.text = ""
    · simp only [if_pos ht]
      simp only [if_pos ht] at hlen
      exact ih acc hno' hlen
    · simp only [if_neg ht]
      simp only [if_neg ht] at hlen
      have hlen' : (joinSpace ((acc ++ [procText e]) ++ blockTexts es)).length ≤ target := by
        rw [List.append_assoc]
        simpa using hlen
      have hle : ¬ (joinSpace (acc ++ [procText e])).length > target := by
        have h₁ := joinSpace_length_le_append (acc ++ [procText e]) (blockTexts es)
        omega
      rw [if_neg hle]
      have := ih (acc ++ [procText e]) hno' hlen'
      rw [this, List.append_assoc]
      rfl

/-- C6 counterexample: a document with no headings and three paragraphs whose
accumulated text exceeds the size target yields two chunks, not exactly one as
the claim states. -/
theorem C6_counterexample :
    (rag_extract 5 "u" "T" none [⟨Tag.p, "aaa"⟩, ⟨Tag.p, "bbb"⟩, ⟨Tag.p, "ccc"⟩] 0).length = 2 ∧
      (2 : Nat) ≠ 1 :=
  ⟨by decide, by decide⟩

/-- C6 amended: a document whose content root has no `h1`/`h2`/`h3` but has
non-empty extractable block text yields exactly one chunk — whose `title` is
the `page_title` and whose `h1` is empty — provided the space-joined extracted
text does not exceed the size target.  Without that bound the mid-loop size
flush can emit more than one chunk, as the counterexample shows. -/
theorem C6_no_heading_amended (target : Nat) (url pt : String) (elems : List Elem) (d : Nat)
    (hno : ∀ e ∈ elems, e.tag ≠ Tag.h2 ∧ e.tag ≠ Tag.h3)
    (hne : blockTexts elems ≠ [])
    (hlen : (joinSpace (blockTexts elems)).length ≤ target) :
    (rag_extract target url pt none elems d).length = 1 ∧
      ∀ c ∈ rag_extract target url pt none elems d, c.title = pt ∧ c.h1 = "" := by
  have hfold := chunk_fold_no_heading target url pt d elems []
    hno (by simpa using hlen)
  have hext : rag_extract target url pt none elems d
      = [create_chunk ⟨"", "", "", blockTexts elems⟩ url pt d] := by
    dsimp only [rag_extract, Option.getD]
    rw [hfold]
    dsimp only
    rw [if_pos (by simpa using hne)]
    simp
  rw [hext]
  refine ⟨rfl, ?_⟩
  intro c hc
  rcases List.mem_singleton.1 hc with rfl
  exact ⟨rfl, rfl⟩

theorem C6_witness :
    (rag_extract 500 "u" "T" none [⟨Tag.p, "aaa"⟩, ⟨Tag.p, "bbb"⟩] 0).length = 1 ∧
      (create_chunk ⟨"", "", "", ["aaa", "bbb"]⟩ "u" "T" 0).title = "T" := by
  have h := C6_no_heading_amended 500 "u" "T" [⟨Tag.p, "aaa"⟩, ⟨Tag.p, "bbb"⟩] 0
    (by decide) (by decide) (by decide)
  exact ⟨h.1, (h.2 _ (by decide)).1⟩

/-! ### Claim C1: oversized single paragraphs -/

theorem suffix_trans {P : Chunk → Prop} {a b c : List Chunk}
    (h₁ : ∃ t, b = a ++ t ∧ ∀ x ∈ t, P x) (h₂ : ∃ t, c = b ++ t ∧ ∀ x ∈ t, P x) :
    ∃ t, c = a ++ t ∧ ∀ x ∈ t, P x := by
  obtain ⟨t₁, rfl, hm₁⟩ := h₁
  obtain ⟨t₂, rfl, hm₂⟩ := h₂
  refine ⟨t₁ ++ t₂, by rw [List.append_assoc], ?_⟩
  intro x hx
  rcases List.mem_append.1 hx with h | h
  exacts [hm₁ x h, hm₂ x h]

theorem word_loop_suffix (target : Nat) (s : Sec) (url pt : String) (d : Nat) :
    ∀ (ws wc : List String) (wl : Nat) (chunks : List Chunk),
      ∃ t, (word_loop target s url pt d ws wc wl chunks).1 = chunks ++ t ∧
        ∀ x ∈ t, ∃ t', x = create_chunk_from_text t' s url pt d := by
  intro ws
  induction ws with
  | nil => intro wc wl chunks; exact ⟨[], by simp [word_loop], by simp⟩
  | cons w ws ih =>
    intro wc wl chunks
    rw [word_loop]
    split
    · refine suffix_trans ⟨[create_chunk_from_text (joinSpace wc) s url pt d], rfl, ?_⟩ (ih _ _ _)
      intro x hx
      rcases List.mem_singleton.1 hx with rfl
      exact ⟨_, rfl⟩
    · exact ih _ _ _

theorem word_loop_length_le (target : Nat) (s : Sec) (url pt : String) (d : Nat)
    (ws wc : List String) (wl : Nat) (chunks : List Chunk) :
    chunks.length ≤ (word_loop target s url pt d ws wc wl chunks).1.length := by
  obtain ⟨t, ht, _⟩ := word_loop_suffix target s url pt d ws wc wl chunks
  rw [ht]
  simp

theorem word_loop_wordChunk_ne (target : Nat) (s : Sec) (url pt : String) (d : Nat) :
    ∀ (ws wc : List String) (wl : Nat) (chunks : List Chunk), wc ≠ [] ∨ ws ≠ [] →
      (word_loop target s url pt d ws wc wl chunks).2.1 ≠ [] := by
  intro ws
  induction ws with
  | nil =>
    intro wc wl chunks h
    rcases h with h | h
    · simpa [word_loop] using h
    · exact absurd rfl h
  | cons w ws ih =>
    intro wc wl chunks _
    rw [word_loop]
    split
    · exact ih _ _ _ (Or.inl (by simp))
    · exact ih _ _ _ (Or.inl (by simp))

/-- Step-body form of the suffix property: one sentence-loop iteration only
ever appends chunks built by `create_chunk_from_text`. -/
theorem sentence_loop_suffix_step (target : Nat) (s : Sec) (url pt : String) (d : Nat)
    (rest : List String)
    (ihall : ∀ (cur : List String) (curLen : Nat) (chunks : List Chunk),
      ∃ t, sentence_loop target s url pt d rest cur curLen chunks = chunks ++ t ∧
        ∀ x ∈ t, ∃ t', x = create_chunk_from_text t' s url pt d)
    (sent' : String) (cur : List String) (curLen : Nat) (chunks : List Chunk) :
    ∃ t,
      (let flushed :=
        if curLen + sent'.length > target ∧ cur ≠ [] then
          (([] : List String), 0,
            chunks ++ [create_chunk_from_text (joinSpace cur) s url pt d])
        else (cur, curLen, chunks)
       let cur1 := flushed.1
       let curLen1 := flushed.2.1
       let chunks1 := flushed.2.2
       if sent'.length > target then
         let wl := word_loop target s url pt d (pySplitWs sent') [] 0 chunks1
         if wl.2.1 ≠ [] then
           sentence_loop target s url pt d rest (cur1 ++ wl.2.1) (curLen1 + wl.2.2) wl.1
         else sentence_loop target s url pt d rest cur1 curLen1 wl.1
       else
         sentence_loop target s url pt d rest (cur1 ++ [sent'])
           (curLen1 + sent'.length) chunks1)
        = chunks ++ t ∧ ∀ x ∈ t, ∃ t', x = create_chunk_from_text t' s url pt d := by
  have hsingle : ∀ x ∈ [create_chunk_from_text (joinSpace cur) s url pt d],
      ∃ t', x = create_chunk_from_text t' s url pt d := by
    intro x hx
    rcases List.mem_singleton.1 hx with rfl
    exact ⟨_, rfl⟩
  by_cases hfl : curLen + sent'.length > target ∧ cur ≠ []
  · rw [if_pos hfl]
    try dsimp only
    by_cases hbig : sent'.length > target
    · rw [if_pos hbig]
      try dsimp only
      by_cases hwc : (word_loop target s url pt d (pySplitWs sent') [] 0
          (chunks ++ [create_chunk_from_text (joinSpace cur) s url pt d])).2.1 ≠ []
      · rw [if_pos hwc]
        exact suffix_trans
          (suffix_trans ⟨_, rfl, hsingle⟩ (word_loop_suffix target s url pt d _ _ _ _))
          (ihall _ _ _)
      · rw [if_neg hwc]
        exact suffix_trans
          (suffix_trans ⟨_, rfl, hsingle⟩ (word_loop_suffix target s url pt d _ _ _ _))
          (ihall _ _ _)
    · rw [if_neg hbig]
      try dsimp only
      exact suffix_trans ⟨_, rfl, hsingle⟩ (ihall _ _ _)
  · rw [if_neg hfl]
    try dsimp only
    by_cases hbig : sent'.length > target
    · rw [if_pos hbig]
      try dsimp only
      by_cases hwc : (word_loop target s url pt d (pySplitWs sent') [] 0 chunks).2.1 ≠ []
      · rw [if_pos hwc]
        exact suffix_trans (word_loop_suffix target s url pt d _ _ _ _) (ihall _ _ _)
      · rw [if_neg hwc]
        exact suffix_trans (word_loop_suffix target s url pt d _ _ _ _) (ihall _ _ _)
    · rw [if_neg hbig]
      try dsimp only
      exact suffix_trans ⟨[], by simp, by simp⟩ (ihall _ _ _)

theorem sentence_loop_suffix (target : Nat) (s : Sec) (url pt : String) (d : Nat) :
    ∀ (sents cur : List String) (curLen : Nat) (chunks : List Chunk),
      ∃ t, sentence_loop target s url pt d sents cur curLen chunks = chunks ++ t ∧
        ∀ x ∈ t, ∃ t', x = create_chunk_from_text t' s url pt d := by
  intro sents
  induction sents with
  | nil =>
    intro cur curLen chunks
    rw [sentence_loop]
    split
    · exact ⟨[create_chunk_from_text (joinSpace cur) s url pt d], rfl,
        fun x hx => by rcases List.mem_singleton.1 hx with rfl; exact ⟨_, rfl⟩⟩
    · exact ⟨[], by simp, by simp⟩
  | cons sent rest ih =>
    intro cur curLen chunks
    rw [sentence_loop]
    split
    · exact ih _ _ _
    · try dsimp only
      by_cases hdot : pyEndsWith (pyStrip sent) "." ∨ pyEndsWith (pyStrip sent) "!"
          ∨ pyEndsWith (pyStrip sent) "?"
      · rw [if_neg (not_not_intro hdot)]
        exact sentence_loop_suffix_step target s url pt d rest ih (pyStrip sent)
          cur curLen chunks
      · rw [if_pos hdot]
        exact sentence_loop_suffix_step target s url pt d rest ih (pyStrip sent ++ ".")
          cur curLen chunks

theorem sentence_loop_length_le (target : Nat) (s : Sec) (url pt : String) (d : Nat)
    (sents cur : List String) (curLen : Nat) (chunks : List Chunk) :
    chunks.length ≤ (sentence_loop target s url pt d sents cur curLen chunks).length := by
  obtain ⟨t, ht, _⟩ := sentence_loop_suffix target s url pt d sents cur curLen chunks
  rw [ht]
  simp

theorem splitWsChar_ne_nil : ∀ l : List Char, splitWsChar l ≠ [] := by
  intro l
  induction l with
  | nil => simp [splitWsChar]
  | cons c cs ih =>
    simp only [splitWsChar]
    split
    · simp
    · split <;> simp

theorem splitWsChar_filter_ne_nil {l : List Char}
    (h : ∃ c ∈ l, c.isWhitespace = false) :
    (splitWsChar l).filter (fun w => w ≠ []) ≠ [] := by
  induction l with
  | nil => simp at h
  | cons c cs ih =>
    simp only [splitWsChar]
    by_cases hw : c.isWhitespace
    · rw [if_pos hw]
      have h' : ∃ x ∈ cs, x.isWhitespace = false := by
        rcases h with ⟨x, hx, hxw⟩
        rcases List.mem_cons.1 hx with rfl | hx
        · rw [hw] at hxw; cases hxw
        · exact ⟨x, hx, hxw⟩
      simpa using ih h'
    · rw [if_neg hw]
      cases hsp : splitWsChar cs with
      | nil => exact absurd hsp (splitWsChar_ne_nil cs)
      | cons a b => simp [List.filter_cons]

theorem pySplitWs_ne_nil {s : String} (h : ∃ c ∈ s.data, c.isWhitespace = false) :
    pySplitWs s ≠ [] := by
  dsimp only [pySplitWs]
  intro hcon
  exact splitWsChar_filter_ne_nil h (List.map_eq_nil_iff.1 hcon)

theorem pyStrip_has_visible {s : String} (h : pyStrip s ≠ "") :
    ∃ c ∈ (pyStrip s).data, c.isWhitespace = false := by
  have hne : (s.data.dropWhile Char.isWhitespace).reverse.dropWhile Char.isWhitespace ≠ [] := by
    intro h0
    apply h
    dsimp only [pyStrip]
    rw [h0]
    rfl
  refine ⟨((s.data.dropWhile Char.isWhitespace).reverse.dropWhile Char.isWhitespace).head hne,
    ?_, ?_⟩
  · show _ ∈ ((s.data.dropWhile Char.isWhitespace).reverse.dropWhile Char.isWhitespace).reverse
    rw [List.mem_reverse]
    exact List.head_mem hne
  · exact List.head_dropWhile_not Char.isWhitespace _ hne

/-- One non-skipped sentence (with some visible character) makes the chunk
list grow: the step-body form of the growth argument. -/
theorem sentence_loop_grows_step (target : Nat) (s : Sec) (url pt : String) (d : Nat)
    (rest : List String)
    (ihall : ∀ (cur : List String) (curLen : Nat) (chunks : List Chunk),
      (cur ≠ [] ∨ ∃ x ∈ rest, pyStrip x ≠ "") →
      chunks.length < (sentence_loop target s url pt d rest cur curLen chunks).length)
    (sent' : String) (hvis : ∃ c ∈ sent'.data, c.isWhitespace = false)
    (cur : List String) (curLen : Nat) (chunks : List Chunk) :
    chunks.length <
      (let flushed :=
        if curLen + sent'.length > target ∧ cur ≠ [] then
          (([] : List String), 0,
            chunks ++ [create_chunk_from_text (joinSpace cur) s url pt d])
        else (cur, curLen, chunks)
       let cur1 := flushed.1
       let curLen1 := flushed.2.1
       let chunks1 := flushed.2.2
       if sent'.length > target then
         let wl := word_loop target s url pt d (pySplitWs sent') [] 0 chunks1
         if wl.2.1 ≠ [] then
           sentence_loop target s url pt d rest (cur1 ++ wl.2.1) (curLen1 + wl.2.2) wl.1
         else sentence_loop target s url pt d rest cur1 curLen1 wl.1
       else
         sentence_loop target s url pt d rest (cur1 ++ [sent'])
           (curLen1 + sent'.length) chunks1).length := by
  by_cases hfl : curLen + sent'.length > target ∧ cur ≠ []
  · rw [if_pos hfl]
    try dsimp only
    by_cases hbig : sent'.length > target
    · rw [if_pos hbig]
      try dsimp only
      by_cases hwc : (word_loop target s url pt d (pySplitWs sent') [] 0
          (chunks ++ [create_chunk_from_text (joinSpace cur) s url pt d])).2.1 ≠ []
      · rw [if_pos hwc]
        have m1 := word_loop_length_le target s url pt d (pySplitWs sent') [] 0
          (chunks ++ [create_chunk_from_text (joinSpace cur) s url pt d])
        have m2 := sentence_loop_length_le target s url pt d rest
          ([] ++ (word_loop target s url pt d (pySplitWs sent') [] 0
            (chunks ++ [create_chunk_from_text (joinSpace cur) s url pt d])).2.1)
          (0 + (word_loop target s url pt d (pySplitWs sent') [] 0
            (chunks ++ [create_chunk_from_text (joinSpace cur) s url pt d])).2.2)
          (word_loop target s url pt d (pySplitWs sent') [] 0
            (chunks ++ [create_chunk_from_text (joinSpace cur) s url pt d])).1
        simp only [List.length_append, List.length_singleton] at m1
        omega
      · rw [if_neg hwc]
        have m1 := word_loop_length_le target s url pt d (pySplitWs sent') [] 0
          (chunks ++ [create_chunk_from_text (joinSpace cur) s url pt d])
        have m2 := sentence_loop_length_le target s url pt d rest [] 0
          (word_loop target s url pt d (pySplitWs sent') [] 0
            (chunks ++ [create_chunk_from_text (joinSpace cur) s url pt d])).1
        simp only [List.length_append, List.length_singleton] at m1
        omega
    · rw [if_neg hbig]
      try dsimp only
      have m2 := sentence_loop_length_le target s url pt d rest ([] ++ [sent'])
        (0 + sent'.length)
        (chunks ++ [create_chunk_from_text (joinSpace cur) s url pt d])
      simp only [List.length_append, List.length_singleton] at m2
      omega
  · rw [if_neg hfl]
    try dsimp only
    by_cases hbig : sent'.length > target
    · rw [if_pos hbig]
      try dsimp only
      have hwne : (word_loop target s url pt d (pySplitWs sent') [] 0 chunks).2.1 ≠ [] :=
        word_loop_wordChunk_ne target s url pt d _ _ _ _ (Or.inr (pySplitWs_ne_nil hvis))
      rw [if_pos hwne]
      have m1 := word_loop_length_le target s url pt d (pySplitWs sent') [] 0 chunks
      have m3 := ihall (cur ++ (word_loop target s url pt d (pySplitWs sent') [] 0 chunks).2.1)
        (curLen + (word_loop target s url pt d (pySplitWs sent') [] 0 chunks).2.2)
        (word_loop target s url pt d (pySplitWs sent') [] 0 chunks).1
        (Or.inl (fun hcontra => hwne (List.append_eq_nil.1 hcontra).2))
      omega
    · rw [if_neg hbig]
      try dsimp only
      exact ihall _ _ _ (Or.inl (by simp))

theorem sentence_loop_grows (target : Nat) (s : Sec) (url pt : String) (d : Nat) :
    ∀ (sents cur : List String) (curLen : Nat) (chunks : List Chunk),
      (cur ≠ [] ∨ ∃ sent ∈ sents, pyStrip sent ≠ "") →
      chunks.length < (sentence_loop target s url pt d sents cur curLen chunks).length := by
  intro sents
  induction sents with
  | nil =>
    intro cur curLen chunks hdisj
    rw [sentence_loop]
    rcases hdisj with hcur | ⟨sent, hmem, _⟩
    · rw [if_pos hcur]; simp
    · simp at hmem
  | cons sent rest ih =>
    intro cur curLen chunks hdisj
    rw [sentence_loop]
    by_cases hskip : pyStrip sent = ""
    · rw [if_pos hskip]
      refine ih cur curLen chunks ?_
      rcases hdisj with hcur | ⟨x, hx, hxne⟩
      · exact Or.inl hcur
      · rcases List.mem_cons.1 hx with rfl | hx
        · exact absurd hskip hxne
        · exact Or.inr ⟨x, hx, hxne⟩
    · rw [if_neg hskip]
      try dsimp only
      by_cases hdot : pyEndsWith (pyStrip sent) "." ∨ pyEndsWith (pyStrip sent) "!"
          ∨ pyEndsWith (pyStrip sent) "?"
      · rw [if_neg (not_not_intro hdot)]
        exact sentence_loop_grows_step target s url pt d rest ih (pyStrip sent)
          (pyStrip_has_visible hskip) cur curLen chunks
      · rw [if_pos hdot]
        refine sentence_loop_grows_step target s url pt d rest ih (pyStrip sent ++ ".")
          ?_ cur curLen chunks
        obtain ⟨c, hc, hw⟩ := pyStrip_has_visible hskip
        exact ⟨c, by rw [String.data_append]; exact List.mem_append_left _ hc, hw⟩

/-- C1 counterexample: a single `p` element whose text (24 characters) exceeds
the size target 10 yields four chunks: the whole paragraph chunk plus three
sentence-split chunks whose `chunk_id` carries the `-split` suffix — so
sentence-level splitting *is* performed in `extract`'s base behavior. -/
theorem C1_counterexample :
    (rag_extract 10 "u" "T" none [⟨Tag.p, "aaaaaa. bbbbbb. cccccc."⟩] 0).length = 4 ∧
      ((rag_extract 10 "u" "T" none [⟨Tag.p, "aaaaaa. bbbbbb. cccccc."⟩] 0).filter
          (fun c => pyEndsWith c.chunk_id "-split")).length = 3 ∧
      (4 : Nat) ≠ 1 :=
  ⟨by decide, by decide, by decide⟩

/-- C1 amended: when a single `p`/`pre` element's extracted text exceeds the
size target (and has a sentence with visible content), the chunk containing
the whole paragraph is still emitted first — so `char_count` may exceed the
target — but the extractor additionally runs `_split_large_content`, emitting
one or more sentence/word-level split chunks after it, and resets the
section's content. -/
theorem C1_oversized_paragraph_amended (target : Nat) (url pt : String) (d : Nat)
    (s : Sec) (chunks : List Chunk) (e : Elem)
    (htag : e.tag = Tag.p ∨ e.tag = Tag.pre)
    (hne : e.text ≠ "")
    (hlong : (procText e).length > target)
    (hsent : ∃ sent ∈ pySplitOnDotSpace (procText e), pyStrip sent ≠ "") :
    ∃ rest,
      (chunk_step target url pt d (s, chunks) e).2
          = chunks ++ create_chunk { s with content := s.content ++ [procText e] } url pt d :: rest ∧
        rest ≠ [] ∧
        (∀ c ∈ rest, ∃ t',
          c = create_chunk_from_text t' { s with content := s.content ++ [procText e] } url pt d) ∧
        (chunk_step target url pt d (s, chunks) e).1.content = [] := by
  have h2 : e.tag ≠ Tag.h2 := by rcases htag with h | h <;> rw [h] <;> simp
  have h3 : e.tag ≠ Tag.h3 := by rcases htag with h | h <;> rw [h] <;> simp
  have hstep := chunk_step_block target url pt d s chunks e h2 h3
  rw [hstep, if_neg hne]
  dsimp only
  have hj : (joinSpace (s.content ++ [procText e])).length > target :=
    Nat.lt_of_lt_of_le hlong (length_le_joinSpace_append_single s.content (procText e))
  rw [if_pos hj, if_pos hlong]
  dsimp only [split_large_content]
  rw [if_pos (by simp :
    ({ s with content := s.content ++ [procText e] } : Sec).content ≠ [])]
  obtain ⟨tail, htail, hmem⟩ := sentence_loop_suffix target
    { s with content := s.content ++ [procText e] } url pt d
    (pySplitOnDotSpace (procText e)) [] 0
    [create_chunk { s with content := s.content ++ [procText e] } url pt d]
  refine ⟨tail, ?_, ?_, hmem, rfl⟩
  · rw [htail]
    rfl
  · have hg := sentence_loop_grows target
      { s with content := s.content ++ [procText e] } url pt d
      (pySplitOnDotSpace (procText e)) [] 0
      [create_chunk { s with content := s.content ++ [procText e] } url pt d]
      (Or.inr hsent)
    rw [htail] at hg
    intro hcon
    rw [hcon] at hg
    simp at hg

theorem C1_witness :
    (chunk_step 10 "u" "T" 0 (⟨"", "", "", []⟩, []) ⟨Tag.p, "aaaaaa. bbbbbb. cccccc."⟩).1.content
        = [] ∧
      (chunk_step 10 "u" "T" 0 (⟨"", "", "", []⟩, []) ⟨Tag.p, "aaaaaa. bbbbbb. cccccc."⟩).2 ≠ [] := by
  obtain ⟨rest, heq, hrest, hmem, hcontent⟩ :=
    C1_oversized_paragraph_amended 10 "u" "T" 0 ⟨"", "", "", []⟩ []
      ⟨Tag.p, "aaaaaa. bbbbbb. cccccc."⟩ (Or.inl rfl) (by decide) (by decide)
      ⟨"aaaaaa", by decide, by decide⟩
  refine ⟨hcontent, ?_⟩
  rw [heq]
  simp

/-! ### Crawler lemmas

`crawl_step_characterize` describes the three possible outcomes of one loop
iteration — halt, a skipped pop, and a visit (with or without link
expansion) — through field-wise equations; all crawl invariants below are
proved from it without unfolding `crawl_step` again.
-/

theorem crawl_step_characterize {α : Type} (web : String → Option Page)
    (ext : Option (String → Page → Nat → Option (List α))) (params : CrawlParams)
    (bd : String) (st : CState α) :
    (crawl_step web ext params bd st = StepRes.halt st ∧
      (st.toVisit = [] ∨ maxPagesHit params.maxPages st.visited.length = true)) ∨
    (∃ u d rest st',
      st.toVisit = (u, d) :: rest ∧
      maxPagesHit params.maxPages st.visited.length = false ∧
      (depthExceeded params.maxDepth d = true ∨ u ∈ st.visited ∨
        filterRejects params.urlFilter u = true) ∧
      crawl_step web ext params bd st = StepRes.next st' ∧
      st'.visited = st.visited ∧ st'.toVisit = rest ∧
      st'.collectedUrls = st.collectedUrls ∧
      st'.popLog = st.popLog ++ [(u, d)] ∧ st'.visitLog = st.visitLog ∧
      st'.discLog = st.discLog) ∨
    (∃ u d rest st' newLinks,
      st.toVisit = (u, d) :: rest ∧
      maxPagesHit params.maxPages st.visited.length = false ∧
      depthExceeded params.maxDepth d = false ∧ u ∉ st.visited ∧
      filterRejects params.urlFilter u = false ∧
      crawl_step web ext params bd st = StepRes.next st' ∧
      st'.visited = u :: st.visited ∧
      st'.toVisit = rest ++ newLinks.map (fun l => (l, d + 1)) ∧
      st'.collectedUrls = st.collectedUrls ++ [u] ∧
      st'.popLog = st.popLog ++ [(u, d)] ∧
      st'.visitLog = st.visitLog ++ [(u, d)] ∧
      st'.discLog = st.discLog ++ newLinks.map (fun l => (l, d + 1, u)) ∧
      (newLinks = [] ∨
        ∃ page, web u = some page ∧
          newLinks = (page.links.map normalize_url).filter
            (fun l => should_visit (u :: st.visited) l bd
              params.stayWithinDomain params.urlFilter))) := by
  cases hq : st.toVisit with
  | nil =>
    refine Or.inl ⟨?_, Or.inl rfl⟩
    unfold crawl_step
    rw [hq]
  | cons hd rest =>
    obtain ⟨u, d⟩ := hd
    by_cases hcap : maxPagesHit params.maxPages st.visited.length = true
    · refine Or.inl ⟨?_, Or.inr hcap⟩
      unfold crawl_step
      rw [hq]
      dsimp only
      rw [if_pos hcap]
    · have hcapf : maxPagesHit params.maxPages st.visited.length = false :=
        Bool.eq_false_iff.mpr hcap
      by_cases hdep : depthExceeded params.maxDepth d = true
      · refine Or.inr (Or.inl ⟨u, d, rest,
          { st with
            toVisit := rest
            popLog := st.popLog ++ [(u, d)] },
          rfl, hcapf, Or.inl hdep, ?_, rfl, rfl, rfl, rfl, rfl, rfl⟩)
        unfold crawl_step
        rw [hq]
        dsimp only
        rw [if_neg hcap, if_pos hdep]
      · by_cases hv : u ∈ st.visited
        · refine Or.inr (Or.inl ⟨u, d, rest,
            { st with
              toVisit := rest
              popLog := st.popLog ++ [(u, d)] },
            rfl, hcapf, Or.inr (Or.inl hv), ?_, rfl, rfl, rfl, rfl, rfl, rfl⟩)
          unfold crawl_step
          rw [hq]
          dsimp only
          rw [if_neg hcap, if_neg hdep, if_pos hv]
        · by_cases hf : filterRejects params.urlFilter u = true
          · refine Or.inr (Or.inl ⟨u, d, rest,
              { st with
                toVisit := rest
                popLog := st.popLog ++ [(u, d)] },
              rfl, hcapf, Or.inr (Or.inr hf), ?_, rfl, rfl, rfl, rfl, rfl, rfl⟩)
            unfold crawl_step
            rw [hq]
            dsimp only
            rw [if_neg hcap, if_neg hdep, if_neg hv, if_pos hf]
          · have hff : filterRejects params.urlFilter u = false :=
              Bool.eq_false_iff.mpr hf
            have hdepf : depthExceeded params.maxDepth d = false :=
              Bool.eq_false_iff.mpr hdep
            cases hw : web u with
            | none =>
              refine Or.inr (Or.inr ⟨u, d, rest,
                { st with
                  toVisit := rest
                  popLog := st.popLog ++ [(u, d)]
                  visited := u :: st.visited
                  collectedUrls := st.collectedUrls ++ [u]
                  visitLog := st.visitLog ++ [(u, d)] },
                [], rfl, hcapf, hdepf, hv, hff, ?_, rfl, by simp, rfl, rfl, rfl, by simp,
                Or.inl rfl⟩)
              unfold crawl_step
              rw [hq]
              dsimp only
              rw [if_neg hcap, if_neg hdep, if_neg hv, if_neg hf, hw]
            | some page =>
              cases ext with
              | none =>
                refine Or.inr (Or.inr ⟨u, d, rest,
                  { st with
                    toVisit := rest ++ ((page.links.map normalize_url).filter
                      (fun l => should_visit (u :: st.visited) l bd
                        params.stayWithinDomain params.urlFilter)).map (fun l => (l, d + 1))
                    popLog := st.popLog ++ [(u, d)]
                    visited := u :: st.visited
                    collectedUrls := st.collectedUrls ++ [u]
                    visitLog := st.visitLog ++ [(u, d)]
                    discLog := st.discLog ++ ((page.links.map normalize_url).filter
                      (fun l => should_visit (u :: st.visited) l bd
                        params.stayWithinDomain params.urlFilter)).map (fun l => (l, d + 1, u)) },
                  (page.links.map normalize_url).filter
                      (fun l => should_visit (u :: st.visited) l bd
                        params.stayWithinDomain params.urlFilter),
                  rfl, hcapf, hdepf, hv, hff, ?_, rfl, rfl, rfl, rfl, rfl, rfl,
                  Or.inr ⟨page, hw, rfl⟩⟩)
                unfold crawl_step
                rw [hq]
                dsimp only
                rw [if_neg hcap, if_neg hdep, if_neg hv, if_neg hf, hw]
              | some f =>
                cases hfr : f u page d with
                | none =>
                  refine Or.inr (Or.inr ⟨u, d, rest,
                    { st with
                      toVisit := rest ++ ((page.links.map normalize_url).filter
                      (fun l => should_visit (u :: st.visited) l bd
                        params.stayWithinDomain params.urlFilter)).map (fun l => (l, d + 1))
                      popLog := st.popLog ++ [(u, d)]
                      visited := u :: st.visited
                      collectedUrls := st.collectedUrls ++ [u]
                      visitLog := st.visitLog ++ [(u, d)]
                      discLog := st.discLog ++ ((page.links.map normalize_url).filter
                      (fun l => should_visit (u :: st.visited) l bd
                        params.stayWithinDomain params.urlFilter)).map (fun l => (l, d + 1, u)) },
                    (page.links.map normalize_url).filter
                      (fun l => should_visit (u :: st.visited) l bd
                        params.stayWithinDomain params.urlFilter),
                    rfl, hcapf, hdepf, hv, hff, ?_, rfl, rfl, rfl, rfl, rfl, rfl,
                    Or.inr ⟨page, hw, rfl⟩⟩)
                  unfold crawl_step
                  rw [hq]
                  dsimp only
                  rw [if_neg hcap, if_neg hdep, if_neg hv, if_neg hf, hw]
                  dsimp only
                  rw [hfr]
                | some recs =>
                  refine Or.inr (Or.inr ⟨u, d, rest,
                    { st with
                      toVisit := rest ++ ((page.links.map normalize_url).filter
                      (fun l => should_visit (u :: st.visited) l bd
                        params.stayWithinDomain params.urlFilter)).map (fun l => (l, d + 1))
                      popLog := st.popLog ++ [(u, d)]
                      visited := u :: st.visited
                      collectedUrls := st.collectedUrls ++ [u]
                      collectedData := st.collectedData ++ recs
                      visitLog := st.visitLog ++ [(u, d)]
                      discLog := st.discLog ++ ((page.links.map normalize_url).filter
                      (fun l => should_visit (u :: st.visited) l bd
                        params.stayWithinDomain params.urlFilter)).map (fun l => (l, d + 1, u)) },
                    (page.links.map normalize_url).filter
                      (fun l => should_visit (u :: st.visited) l bd
                        params.stayWithinDomain params.urlFilter),
                    rfl, hcapf, hdepf, hv, hff, ?_, rfl, rfl, rfl, rfl, rfl, rfl,
                    Or.inr ⟨page, hw, rfl⟩⟩)
                  unfold crawl_step
                  rw [hq]
                  dsimp only
                  rw [if_neg hcap, if_neg hdep, if_neg hv, if_neg hf, hw]
                  dsimp only
                  rw [hfr]

/-- C9: when the fetch collaborator returns no document for the popped URL
(and no skip condition applies), the loop continues — the step is a `next`,
never a halt — the URL still counts as visited (the visited list grows by
one and the URL is appended to `collected_urls`), while no data record is
collected and no links are discovered. -/
theorem C9_fetch_failure {α : Type} (web : String → Option Page)
    (ext : Option (String → Page → Nat → Option (List α)))
    (params : CrawlParams) (bd : String) (st : CState α) (u : String) (d : Nat)
    (rest : List (String × Nat))
    (hq : st.toVisit = (u, d) :: rest)
    (hcap : maxPagesHit params.maxPages st.visited.length = false)
    (hdep : depthExceeded params.maxDepth d = false)
    (hv : u ∉ st.visited)
    (hf : filterRejects params.urlFilter u = false)
    (hw : web u = none) :
    isNext (crawl_step web ext params bd st) = true ∧
    (stepState (crawl_step web ext params bd st)).visited = u :: st.visited ∧
    (stepState (crawl_step web ext params bd st)).visited.length =
      st.visited.length + 1 ∧
    (stepState (crawl_step web ext params bd st)).collectedData =
      st.collectedData ∧
    (stepState (crawl_step web ext params bd st)).collectedUrls =
      st.collectedUrls ++ [u] ∧
    (stepState (crawl_step web ext params bd st)).toVisit = rest ∧
    (stepState (crawl_step web ext params bd st)).discLog = st.discLog := by
  have hstep : crawl_step web ext params bd st = StepRes.next
      { st with
        toVisit := rest
        popLog := st.popLog ++ [(u, d)]
        visited := u :: st.visited
        collectedUrls := st.collectedUrls ++ [u]
        visitLog := st.visitLog ++ [(u, d)] } := by
    unfold crawl_step
    rw [hq]
    dsimp only
    rw [if_neg (by simp [hcap]), if_neg (by simp [hdep]), if_neg hv,
      if_neg (by simp [hf]), hw]
  rw [hstep]
  exact ⟨rfl, rfl, rfl, rfl, rfl, rfl, rfl⟩

/-- C9 witness: a concrete fetch failure — one queued URL, a web with no
pages — continues with the URL visited and nothing collected. -/
theorem C9_witness :
    isNext (crawl_step (fun _ => none)
      (none : Option (String → Page → Nat → Option (List Nat)))
      ⟨none, none, false, none⟩ ""
      ⟨[], [("http://a.com", 0)], [], [], [], [], []⟩) = true ∧
    (stepState (crawl_step (fun _ => none)
      (none : Option (String → Page → Nat → Option (List Nat)))
      ⟨none, none, false, none⟩ ""
      ⟨[], [("http://a.com", 0)], [], [], [], [], []⟩)).visited =
        ["http://a.com"] ∧
    (stepState (crawl_step (fun _ => none)
      (none : Option (String → Page → Nat → Option (List Nat)))
      ⟨none, none, false, none⟩ ""
      ⟨[], [("http://a.com", 0)], [], [], [], [], []⟩)).visited.length = 1 ∧
    (stepState (crawl_step (fun _ => none)
      (none : Option (String → Page → Nat → Option (List Nat)))
      ⟨none, none, false, none⟩ ""
      ⟨[], [("http://a.com", 0)], [], [], [], [], []⟩)).collectedData = [] ∧
    (stepState (crawl_step (fun _ => none)
      (none : Option (String → Page → Nat → Option (List Nat)))
      ⟨none, none, false, none⟩ ""
      ⟨[], [("http://a.com", 0)], [], [], [], [], []⟩)).collectedUrls =
        ["http://a.com"] ∧
    (stepState (crawl_step (fun _ => none)
      (none : Option (String → Page → Nat → Option (List Nat)))
      ⟨none, none, false, none⟩ ""
      ⟨[], [("http://a.com", 0)], [], [], [], [], []⟩)).toVisit = [] ∧
    (stepState (crawl_step (fun _ => none)
      (none : Option (String → Page → Nat → Option (List Nat)))
      ⟨none, none, false, none⟩ ""
      ⟨[], [("http://a.com", 0)], [], [], [], [], []⟩)).discLog = [] :=
  C9_fetch_failure (fun _ => none) none ⟨none, none, false, none⟩ ""
    ⟨[], [("http://a.com", 0)], [], [], [], [], []⟩ "http://a.com" 0 []
    rfl rfl rfl (by simp) rfl rfl

/-- C10: `crawl` clears all crawler state before validating the start URL, so
a call with an invalid start URL raises and leaves every collection empty —
the results of any previous session are lost. -/
theorem C10_reset_before_validate {α : Type} (fuel : Nat)
    (web : String → Option Page)
    (ext : Option (String → Page → Nat → Option (List α)))
    (startUrl : String) (params : CrawlParams) (st : CState α)
    (hinv : is_valid_url (normalize_url startUrl) = false) :
    (crawl fuel web ext startUrl params st).1 =
      Except.error ("Invalid start URL: " ++ normalize_url startUrl) ∧
    (crawl fuel web ext startUrl params st).2.visited = [] ∧
    (crawl fuel web ext startUrl params st).2.toVisit = [] ∧
    (crawl fuel web ext startUrl params st).2.collectedUrls = [] ∧
    (crawl fuel web ext startUrl params st).2.collectedData = [] := by
  unfold crawl
  simp [hinv, creset, emptyCState]

/-- C10 witness: a crawl called with the invalid start URL `ftp://x.com/a`
on a crawler whose previous session left data behind raises and leaves all
four collections empty. -/
theorem C10_witness :
    is_valid_url (normalize_url "ftp://x.com/a") = false ∧
    ((crawl 5 (fun _ => none)
        (none : Option (String → Page → Nat → Option (List Nat)))
        "ftp://x.com/a" ⟨none, none, true, none⟩
        ⟨["u"], [("v", 1)], ["u"], [7], [], [], []⟩).1 =
      Except.error ("Invalid start URL: " ++ normalize_url "ftp://x.com/a") ∧
    (crawl 5 (fun _ => none)
        (none : Option (String → Page → Nat → Option (List Nat)))
        "ftp://x.com/a" ⟨none, none, true, none⟩
        ⟨["u"], [("v", 1)], ["u"], [7], [], [], []⟩).2.visited = [] ∧
    (crawl 5 (fun _ => none)
        (none : Option (String → Page → Nat → Option (List Nat)))
        "ftp://x.com/a" ⟨none, none, true, none⟩
        ⟨["u"], [("v", 1)], ["u"], [7], [], [], []⟩).2.toVisit = [] ∧
    (crawl 5 (fun _ => none)
        (none : Option (String → Page → Nat → Option (List Nat)))
        "ftp://x.com/a" ⟨none, none, true, none⟩
        ⟨["u"], [("v", 1)], ["u"], [7], [], [], []⟩).2.collectedUrls = [] ∧
    (crawl 5 (fun _ => none)
        (none : Option (String → Page → Nat → Option (List Nat)))
        "ftp://x.com/a" ⟨none, none, true, none⟩
        ⟨["u"], [("v", 1)], ["u"], [7], [], [], []⟩).2.collectedData = []) :=
  ⟨by decide, C10_reset_before_validate 5 (fun _ => none) none "ftp://x.com/a"
    ⟨none, none, true, none⟩ ⟨["u"], [("v", 1)], ["u"], [7], [], [], []⟩
    (by decide)⟩

/-- A false page-cap check with a positive cap means the visited count is
still below the cap. -/
theorem maxPagesHit_false_lt {n k : Nat} (hn : 1 ≤ n)
    (h : maxPagesHit (some n) k = false) : k < n := by
  simp only [maxPagesHit, ne_eq, ge_iff_le, decide_eq_false_iff_not, not_and,
    not_le] at h
  omega

/-- With `maxPages = some n` (`n ≥ 1`), the crawl loop never grows the
visited list beyond `n`: the cap check halts the loop as soon as the count
reaches `n`. -/
theorem crawl_loop_visited_le {α : Type} (web : String → Option Page)
    (ext : Option (String → Page → Nat → Option (List α)))
    (params : CrawlParams) (bd : String) (n : Nat) (hn : 1 ≤ n)
    (hmp : params.maxPages = some n) :
    ∀ fuel (st : CState α), st.visited.length ≤ n →
      (crawl_loop web ext params bd fuel st).visited.length ≤ n := by
  intro fuel
  induction fuel with
  | zero => intro st h; exact h
  | succ fuel ih =>
    intro st h
    rcases crawl_step_characterize web ext params bd st with
      ⟨heq, _⟩ |
      ⟨u, d, rest, st', _, _, _, hstep, hvis, _, _, _, _, _⟩ |
      ⟨u, d, rest, st', nl, _, hcap, _, _, _, hstep, hvis, _, _, _, _, _, _⟩
    · simp only [crawl_loop, heq]
      exact h
    · simp only [crawl_loop, hstep]
      exact ih st' (by rw [hvis]; exact h)
    · simp only [crawl_loop, hstep]
      refine ih st' ?_
      rw [hvis, List.length_cons]
      have hlt := maxPagesHit_false_lt hn (by rw [hmp] at hcap; exact hcap)
      omega

/-- C4 counterexample: with `maxPages = 0` the Python truthiness check
`if max_pages and ...` is never taken (`0` is falsy), so a one-page crawl
visits 1 page — `stats.visited_count ≤ 0` fails. -/
theorem C4_counterexample :
    stats_of (crawl 5
      (fun u => if u = "http://a.com" then some { links := [] } else none)
      (none : Option (String → Page → Nat → Option (List Nat)))
      "http://a.com" ⟨none, some 0, true, none⟩ (emptyCState Nat)).1 =
      some ⟨1, 0, 1, 0⟩ ∧ ¬ (1 ≤ 0) :=
  ⟨by decide, by decide⟩

/-- C4 amended: for `maxPages = N` with `N ≥ 1` the termination check fires
once the visited set reaches `N`, so `stats.visited_count ≤ N` whenever the
crawl returns results (`N = 0` is falsy in Python and disables the cap). -/
theorem C4_page_cap_amended {α : Type} (fuel : Nat)
    (web : String → Option Page)
    (ext : Option (String → Page → Nat → Option (List α)))
    (startUrl : String) (params : CrawlParams) (st : CState α) (n : Nat)
    (r : CrawlResults α)
    (hmp : params.maxPages = some n) (hn : 1 ≤ n)
    (hok : (crawl fuel web ext startUrl params st).1 = Except.ok r) :
    r.stats.visited_count ≤ n := by
  unfold crawl at hok
  dsimp only at hok
  by_cases hval : is_valid_url (normalize_url startUrl) = true
  · rw [if_neg (by simp [hval])] at hok
    dsimp only at hok
    rw [Except.ok.injEq] at hok
    subst hok
    exact crawl_loop_visited_le web ext params
      (get_domain (normalize_url startUrl)) n hn hmp fuel
      { creset st with toVisit := [(normalize_url startUrl, 0)] }
      (by simp [creset, emptyCState])
  · rw [if_pos (by simp [Bool.eq_false_iff.mpr hval])] at hok
    exact absurd hok (by simp)

/-- C4 witness: a two-page site crawled with `maxPages = 1` halts after one
visit; the amended cap theorem applies with `n = 1`. -/
theorem C4_witness :
    (crawl 5
      (fun u => if u = "http://a.com" then some { links := ["http://a.com/p"] }
        else none)
      (none : Option (String → Page → Nat → Option (List Nat)))
      "http://a.com" ⟨none, some 1, true, none⟩ (emptyCState Nat)).1 =
      Except.ok ⟨["http://a.com"], [], ⟨1, 1, 1, 0⟩⟩ ∧
    (⟨["http://a.com"], [], ⟨1, 1, 1, 0⟩⟩ : CrawlResults Nat).stats.visited_count ≤ 1 :=
  ⟨by rfl, C4_page_cap_amended 5
    (fun u => if u = "http://a.com" then some { links := ["http://a.com/p"] }
      else none)
    none "http://a.com" ⟨none, some 1, true, none⟩ (emptyCState Nat) 1
    ⟨["http://a.com"], [], ⟨1, 1, 1, 0⟩⟩ rfl (by decide) (by rfl)⟩

/-- The crawl loop preserves distinctness of the visited list together with
`collected_urls` being exactly the visited list in visit order. -/
theorem crawl_loop_nodup {α : Type} (web : String → Option Page)
    (ext : Option (String → Page → Nat → Option (List α)))
    (params : CrawlParams) (bd : String) :
    ∀ fuel (st : CState α), st.visited.Nodup →
      st.collectedUrls = st.visited.reverse →
      (crawl_loop web ext params bd fuel st).visited.Nodup ∧
      (crawl_loop web ext params bd fuel st).collectedUrls =
        (crawl_loop web ext params bd fuel st).visited.reverse := by
  intro fuel
  induction fuel with
  | zero => intro st h1 h2; exact ⟨h1, h2⟩
  | succ fuel ih =>
    intro st h1 h2
    rcases crawl_step_characterize web ext params bd st with
      ⟨heq, _⟩ |
      ⟨u, d, rest, st', _, _, _, hstep, hvis, _, hurls, _, _, _⟩ |
      ⟨u, d, rest, st', nl, _, _, _, hv, _, hstep, hvis, _, hurls, _, _, _, _⟩
    · simp only [crawl_loop, heq]
      exact ⟨h1, h2⟩
    · simp only [crawl_loop, hstep]
      exact ih st' (by rw [hvis]; exact h1) (by rw [hurls, hvis]; exact h2)
    · simp only [crawl_loop, hstep]
      refine ih st' ?_ ?_
      · rw [hvis]
        exact List.nodup_cons.mpr ⟨hv, h1⟩
      · rw [hurls, hvis, h2]
        simp

/-- C3: no URL is visited twice in a crawl session — the visited list is
duplicate-free, `collected_urls` is duplicate-free, and its length equals
the size of the visited set. -/
theorem C3_no_duplicate_visits {α : Type} (fuel : Nat)
    (web : String → Option Page)
    (ext : Option (String → Page → Nat → Option (List α)))
    (startUrl : String) (params : CrawlParams) (st : CState α) :
    (crawl fuel web ext startUrl params st).2.visited.Nodup ∧
    (crawl fuel web ext startUrl params st).2.collectedUrls.Nodup ∧
    (crawl fuel web ext startUrl params st).2.collectedUrls.length =
      (crawl fuel web ext startUrl params st).2.visited.length := by
  unfold crawl
  dsimp only
  by_cases hval : is_valid_url (normalize_url startUrl) = true
  · rw [if_neg (by simp [hval])]
    dsimp only
    have h := crawl_loop_nodup web ext params
      (get_domain (normalize_url startUrl)) fuel
      { creset st with toVisit := [(normalize_url startUrl, 0)] }
      (by simp [creset, emptyCState]) (by simp [creset, emptyCState])
    refine ⟨h.1, ?_, ?_⟩
    · rw [h.2]
      exact List.nodup_reverse.mpr h.1
    · rw [h.2]
      simp
  · rw [if_pos (by simp [Bool.eq_false_iff.mpr hval])]
    simp [creset, emptyCState]

/-- A successful association-list lookup survives appending on the right. -/
theorem lookup_append_some {β : Type} (a : String) (l₁ l₂ : List (String × β))
    (b : β) (h : List.lookup a l₁ = some b) :
    List.lookup a (l₁ ++ l₂) = some b := by
  induction l₁ with
  | nil => simp [List.lookup] at h
  | cons x xs ih =>
    obtain ⟨k, v⟩ := x
    by_cases hk : (a == k) = true
    · simp only [List.cons_append, List.lookup, hk] at h ⊢
      exact h
    · have hkf : (a == k) = false := Bool.eq_false_iff.mpr hk
      simp only [List.cons_append, List.lookup, hkf] at h ⊢
      exact ih h

/-- A failed association-list lookup defers to the appended list. -/
theorem lookup_append_none {β : Type} (a : String) (l₁ l₂ : List (String × β))
    (h : List.lookup a l₁ = none) :
    List.lookup a (l₁ ++ l₂) = List.lookup a l₂ := by
  induction l₁ with
  | nil => simp
  | cons x xs ih =>
    obtain ⟨k, v⟩ := x
    by_cases hk : (a == k) = true
    · simp only [List.lookup, hk] at h
      exact absurd h (by simp)
    · have hkf : (a == k) = false := Bool.eq_false_iff.mpr hk
      simp only [List.cons_append, List.lookup, hkf] at h ⊢
      exact ih h

/-- Lookup misses when no key matches. -/
theorem lookup_eq_none_of_ne {β : Type} (a : String) (l : List (String × β))
    (h : ∀ p ∈ l, p.1 ≠ a) : List.lookup a l = none := by
  induction l with
  | nil => rfl
  | cons x xs ih =>
    obtain ⟨k, v⟩ := x
    have hk : (a == k) = false :=
      beq_eq_false_iff_ne.mpr (Ne.symm (h (k, v) (List.mem_cons_self _ _)))
    simp only [List.lookup, hk]
    exact ih (fun p hp => h p (List.mem_cons_of_mem _ hp))

/-- The depth-limit check is monotone in the depth. -/
theorem depthExceeded_mono {m : Option Nat} {a b : Nat} (hab : a ≤ b)
    (h : depthExceeded m a = true) : depthExceeded m b = true := by
  cases m with
  | none => simp [depthExceeded] at h
  | some k =>
    simp only [depthExceeded, decide_eq_true_eq] at h ⊢
    omega

/-- A constant list is sorted. -/
theorem pairwise_le_const {k : Nat} : ∀ {l : List Nat}, (∀ x ∈ l, x = k) →
    List.Pairwise (fun a b : Nat => a ≤ b) l := by
  intro l
  induction l with
  | nil => intro _; exact List.Pairwise.nil
  | cons x xs ih =>
    intro h
    refine List.pairwise_cons.mpr
      ⟨?_, ih (fun y hy => h y (List.mem_cons_of_mem _ hy))⟩
    intro b hb
    rw [h x (List.mem_cons_self _ _), h b (List.mem_cons_of_mem _ hb)]

/-- With a sorted enqueue log split as `popLog ++ (u, d) :: rest`, every
popped depth is at most `d` and every remaining frontier depth is at least
`d`. -/
theorem queue_pop_le {α : Type} {start : String} {st : CState α} {u : String}
    {d : Nat} {rest : List (String × Nat)}
    (hqe : st.popLog ++ st.toVisit = enqLog start st)
    (hsort : List.Sorted (fun a b : Nat => a ≤ b)
      ((enqLog start st).map Prod.snd))
    (hq : st.toVisit = (u, d) :: rest) :
    (∀ p ∈ st.popLog, p.2 ≤ d) ∧ (∀ p ∈ rest, d ≤ p.2) := by
  rw [← hqe, hq, List.map_append, List.Sorted, List.pairwise_append] at hsort
  obtain ⟨h1, h2, h3⟩ := hsort
  constructor
  · intro p hp
    exact h3 p.2 (List.mem_map_of_mem _ hp) d (by simp)
  · intro p hp
    rw [List.map_cons] at h2
    exact (List.pairwise_cons.mp h2).1 p.2 (List.mem_map_of_mem _ hp)

/-- One crawl step preserves the BFS invariant. -/
theorem crawl_step_inv {α : Type} (web : String → Option Page)
    (ext : Option (String → Page → Nat → Option (List α)))
    (params : CrawlParams) (bd start : String) {st st' : CState α}
    (hinv : CrawlInv params start st)
    (hs : crawl_step web ext params bd st = StepRes.next st') :
    CrawlInv params start st' := by
  obtain ⟨hqe, hsort, hfb, hvf, hpr, hsub⟩ := hinv
  rcases crawl_step_characterize web ext params bd st with
    ⟨heq, _⟩ |
    ⟨u, d, rest, st'', hq, hcap, hreason, hstep, hvis, htv, hurls, hpop,
      hvlog, hdisc⟩ |
    ⟨u, d, rest, st'', nl, hq, hcap, hdep, hv, hff, hstep, hvis, htv, hurls,
      hpop, hvlog, hdisc, hnl⟩
  · rw [heq] at hs
    simp at hs
  · rw [hstep] at hs
    injection hs with he
    subst he
    have henq : enqLog start st'' = enqLog start st := by
      unfold enqLog
      rw [hdisc]
    have hrle := (queue_pop_le hqe hsort hq).2
    refine ⟨?_, ?_, ?_, ?_, ?_, ?_⟩
    · rw [hpop, htv, henq, ← hqe, hq]
      simp
    · rw [henq]
      exact hsort
    · intro p hp q hqh
      rw [htv] at hp hqh
      cases rest with
      | nil => simp at hp
      | cons r0 rr =>
        have hq0 : q = r0 := by
          rw [List.head?_cons] at hqh
          exact (Option.some_inj.mp hqh).symm
        have hpd : p.2 ≤ d + 1 :=
          hfb p (by rw [hq]; exact List.mem_cons_of_mem _ hp) (u, d)
            (by rw [hq]; rfl)
        have hd0 : d ≤ r0.2 := hrle r0 (List.mem_cons_self _ _)
        have hq2 : q.2 = r0.2 := by rw [hq0]
        omega
    · intro p hp
      rw [hvlog] at hp
      rw [henq]
      exact hvf p hp
    · intro p hp
      rw [hpop] at hp
      rw [hvis]
      rcases List.mem_append.mp hp with h | h
      · exact hpr p h
      · have hpu : p = (u, d) := by simpa using h
        subst hpu
        rcases hreason with h1 | h1 | h1
        · exact Or.inr (Or.inl h1)
        · exact Or.inl h1
        · exact Or.inr (Or.inr h1)
    · rw [hvlog, hpop]
      exact List.Sublist.trans hsub (List.sublist_append_left _ _)
  · rw [hstep] at hs
    injection hs with he
    subst he
    have hple := (queue_pop_le hqe hsort hq).1
    have hrle := (queue_pop_le hqe hsort hq).2
    have henq : enqLog start st'' =
        enqLog start st ++ nl.map (fun l => (l, d + 1)) := by
      unfold enqLog
      rw [hdisc]
      simp [List.map_map, Function.comp]
    have hup : ∀ p ∈ st.popLog, p.1 ≠ u := by
      intro p hp hne
      rcases hpr p hp with h1 | h1 | h1
      · exact hv (hne ▸ h1)
      · have h2 := depthExceeded_mono (hple p hp) h1
        rw [hdep] at h2
        exact Bool.false_ne_true h2
      · rw [hne, hff] at h1
        exact Bool.false_ne_true h1
    refine ⟨?_, ?_, ?_, ?_, ?_, ?_⟩
    · rw [hpop, htv, henq, ← hqe, hq]
      simp
    · rw [henq, List.map_append, List.Sorted, List.pairwise_append]
      refine ⟨hsort, ?_, ?_⟩
      · refine pairwise_le_const (k := d + 1) ?_
        intro x hx
        rw [List.map_map] at hx
        obtain ⟨a, ha, hax⟩ := List.mem_map.mp hx
        exact hax.symm
      · intro a ha b hb
        have hb1 : b = d + 1 := by
          rw [List.map_map] at hb
          obtain ⟨x, hx, hxb⟩ := List.mem_map.mp hb
          exact hxb.symm
        obtain ⟨p, hp, hpa⟩ := List.mem_map.mp ha
        rw [← hqe, hq] at hp
        rcases List.mem_append.mp hp with h | h
        · have h2 := hple p h
          rw [← hpa, hb1]
          omega
        · rcases List.mem_cons.mp h with h2 | h2
          · rw [← hpa, hb1, h2]
            simp
          · have h3 := hfb p (by rw [hq]; exact List.mem_cons_of_mem _ h2)
              (u, d) (by rw [hq]; rfl)
            rw [← hpa, hb1]
            omega
    · intro p hp q hqh
      rw [htv] at hp hqh
      have hpb : p.2 ≤ d + 1 := by
        rcases List.mem_append.mp hp with h | h
        · exact hfb p (by rw [hq]; exact List.mem_cons_of_mem _ h) (u, d)
            (by rw [hq]; rfl)
        · obtain ⟨x, hx, hxp⟩ := List.mem_map.mp h
          rw [← hxp]
      have hqd : d ≤ q.2 := by
        cases rest with
        | nil =>
          rw [List.nil_append] at hqh
          have hqm : q ∈ nl.map (fun l => (l, d + 1)) :=
            List.mem_of_mem_head? hqh
          obtain ⟨x, hx, hxq⟩ := List.mem_map.mp hqm
          rw [← hxq]
          exact Nat.le_succ d
        | cons r0 rr =>
          have hq0 : q = r0 := by
            rw [List.cons_append, List.head?_cons] at hqh
            exact (Option.some_inj.mp hqh).symm
          rw [hq0]
          exact hrle r0 (List.mem_cons_self _ _)
      omega
    · intro p hp
      rw [hvlog] at hp
      rw [henq]
      rcases List.mem_append.mp hp with h | h
      · exact lookup_append_some _ _ _ _ (hvf p h)
      · have hpu : p = (u, d) := by simpa using h
        subst hpu
        rw [← hqe, hq, List.append_assoc,
          lookup_append_none _ _ _ (lookup_eq_none_of_ne _ _ hup)]
        simp [List.lookup]
    · intro p hp
      rw [hpop] at hp
      rw [hvis]
      rcases List.mem_append.mp hp with h | h
      · rcases hpr p h with h1 | h1 | h1
        · exact Or.inl (List.mem_cons_of_mem _ h1)
        · exact Or.inr (Or.inl h1)
        · exact Or.inr (Or.inr h1)
      · have hpu : p = (u, d) := by simpa using h
        subst hpu
        exact Or.inl (List.mem_cons_self _ _)
    · rw [hvlog, hpop]
      exact List.Sublist.append hsub (List.Sublist.refl _)

/-- The crawl loop preserves the BFS invariant. -/
theorem crawl_loop_inv {α : Type} (web : String → Option Page)
    (ext : Option (String → Page → Nat → Option (List α)))
    (params : CrawlParams) (bd start : String) :
    ∀ fuel (st : CState α), CrawlInv params start st →
      CrawlInv params start (crawl_loop web ext params bd fuel st) := by
  intro fuel
  induction fuel with
  | zero => intro st h; exact h
  | succ fuel ih =>
    intro st h
    cases hres : crawl_step web ext params bd st with
    | halt s =>
      simp only [crawl_loop, hres]
      rcases crawl_step_characterize web ext params bd st with
        ⟨heq, _⟩ | ⟨_, _, _, _, _, _, _, hstep, _⟩ |
        ⟨_, _, _, _, _, _, _, _, _, _, hstep, _⟩
      · rw [hres] at heq
        injection heq with h2
        rw [← h2] at h
        exact h
      · rw [hstep] at hres
        simp at hres
      · rw [hstep] at hres
        simp at hres
    | next s =>
      simp only [crawl_loop, hres]
      exact ih s (crawl_step_inv web ext params bd start h hres)

/-- The state the crawl loop starts from satisfies the BFS invariant. -/
theorem crawl_init_inv {α : Type} (params : CrawlParams) (start : String)
    (st : CState α) :
    CrawlInv params start { creset st with toVisit := [(start, 0)] } := by
  refine ⟨?_, ?_, ?_, ?_, ?_, ?_⟩ <;>
    simp [creset, emptyCState, enqLog, List.nil_sublist]

/-- C2 counterexample: a rediscovery of an already-queued (not yet visited)
URL is **not** dropped — `_should_visit` checks only the visited set — so the
frontier ends up holding the same URL twice, at depth 1 and at depth 2. -/
theorem C2_counterexample :
    (crawl 10
      (fun u => if u = "http://a.com" then
          some { links := ["http://a.com/b", "http://a.com/c"] }
        else if u = "http://a.com/b" then some { links := ["http://a.com/c"] }
        else none)
      (none : Option (String → Page → Nat → Option (List Nat)))
      "http://a.com" ⟨none, some 2, true, none⟩ (emptyCState Nat)).2.toVisit =
      [("http://a.com/c", 1), ("http://a.com/c", 2)] ∧
    ¬ List.Nodup ((crawl 10
      (fun u => if u = "http://a.com" then
          some { links := ["http://a.com/b", "http://a.com/c"] }
        else if u = "http://a.com/b" then some { links := ["http://a.com/c"] }
        else none)
      (none : Option (String → Page → Nat → Option (List Nat)))
      "http://a.com" ⟨none, some 2, true, none⟩
      (emptyCState Nat)).2.toVisit.map Prod.fst) := by
  exact ⟨by decide, by decide⟩

/-- C2 amended: pages are visited in FIFO/breadth-first order relative to
discovery — the visit log is a sublist of the enqueue log, whose depths are
non-decreasing — and every visited page's recorded depth is its
first-discovery depth (the first lookup of its URL in the enqueue log), so a
later, deeper rediscovery never updates it.  (Rediscoveries of an
already-queued URL are enqueued again, not dropped; they are skipped at pop
time.) -/
theorem C2_bfs_first_discovery {α : Type} (fuel : Nat)
    (web : String → Option Page)
    (ext : Option (String → Page → Nat → Option (List α)))
    (startUrl : String) (params : CrawlParams) (st : CState α) :
    List.Sublist (crawl fuel web ext startUrl params st).2.visitLog
      (enqLog (normalize_url startUrl)
        (crawl fuel web ext startUrl params st).2) ∧
    (∀ p ∈ (crawl fuel web ext startUrl params st).2.visitLog,
      List.lookup p.1 (enqLog (normalize_url startUrl)
        (crawl fuel web ext startUrl params st).2) = some p.2) ∧
    List.Sorted (fun a b : Nat => a ≤ b)
      ((enqLog (normalize_url startUrl)
        (crawl fuel web ext startUrl params st).2).map Prod.snd) := by
  unfold crawl
  dsimp only
  by_cases hval : is_valid_url (normalize_url startUrl) = true
  · rw [if_neg (by simp [hval])]
    dsimp only
    obtain ⟨hqe, hsort, _, hvf, _, hsub⟩ :=
      crawl_loop_inv web ext params (get_domain (normalize_url startUrl))
        (normalize_url startUrl) fuel
        { creset st with toVisit := [(normalize_url startUrl, 0)] }
        (crawl_init_inv params (normalize_url startUrl) st)
    refine ⟨?_, hvf, hsort⟩
    rw [← hqe]
    exact List.Sublist.trans hsub (List.sublist_append_left _ _)
  · rw [if_pos (by simp [Bool.eq_false_iff.mpr hval])]
    dsimp only
    refine ⟨?_, ?_, ?_⟩ <;> simp [creset, emptyCState, enqLog, List.nil_sublist]

/-- The serialized scheme/netloc prefix that `urlunsplit` emits in front of
the path when the netloc is nonempty. -/
def hostA (s nl : List Char) : List Char :=
  (if s ≠ [] then s ++ [':'] else []) ++ '/' :: '/' :: nl

/-- Code points 65-90 shifted by 32 survive the `Char.ofNat` round trip. -/
theorem char_ofNat_shift {n : Nat} (h1 : 65 ≤ n) (h2 : n ≤ 90) :
    (Char.ofNat (n + 32)).toNat = n + 32 := by
  interval_cases n <;> decide

/-- `Char.toLower` on an ASCII capital shifts the code point by 32. -/
theorem toLower_of_upper {c : Char} (h : c.toNat ≥ 65 ∧ c.toNat ≤ 90) :
    Char.toLower c = Char.ofNat (c.toNat + 32) := by
  simp only [Char.toLower]
  rw [if_pos h]

/-- `Char.toLower` fixes anything that is not an ASCII capital. -/
theorem toLower_of_not_upper {c : Char} (h : ¬(c.toNat ≥ 65 ∧ c.toNat ≤ 90)) :
    Char.toLower c = c := by
  simp only [Char.toLower]
  rw [if_neg h]

/-- `Char.toLower` is idempotent. -/
theorem toLower_toLower (c : Char) :
    Char.toLower (Char.toLower c) = Char.toLower c := by
  by_cases h : c.toNat ≥ 65 ∧ c.toNat ≤ 90
  · rw [toLower_of_upper h]
    refine toLower_of_not_upper ?_
    intro hcon
    rw [char_ofNat_shift h.1 h.2] at hcon
    omega
  · rw [toLower_of_not_upper h, toLower_of_not_upper h]

/-- `Char.toLower` preserves being an ASCII letter. -/
theorem toLower_isAlpha {c : Char} (h : c.isAlpha = true) :
    (Char.toLower c).isAlpha = true := by
  rw [Char.isAlpha, Bool.or_eq_true] at h
  rcases h with h | h
  · simp only [Char.isUpper, Bool.and_eq_true, decide_eq_true_eq] at h
    have hn : 65 ≤ c.toNat ∧ c.toNat ≤ 90 := ⟨h.1, h.2⟩
    have hl := toLower_of_upper ⟨hn.1, hn.2⟩
    have hres : (Char.toLower c).toNat = c.toNat + 32 := by
      rw [hl]
      exact char_ofNat_shift hn.1 hn.2
    have h97 : 97 ≤ (Char.toLower c).toNat := by rw [hres]; omega
    have h122 : (Char.toLower c).toNat ≤ 122 := by rw [hres]; omega
    rw [Char.isAlpha, Bool.or_eq_true]
    right
    simp only [Char.isLower, Bool.and_eq_true, decide_eq_true_eq]
    exact ⟨h97, h122⟩
  · simp only [Char.isLower, Bool.and_eq_true, decide_eq_true_eq] at h
    have hn : 97 ≤ c.toNat ∧ c.toNat ≤ 122 := ⟨h.1, h.2⟩
    have hl : Char.toLower c = c := toLower_of_not_upper (by omega)
    rw [hl, Char.isAlpha, Bool.or_eq_true]
    right
    simp only [Char.isLower, Bool.and_eq_true, decide_eq_true_eq]
    exact ⟨hn.1, hn.2⟩

/-- `Char.toLower` preserves URL scheme characters. -/
theorem schemeChar_toLower {c : Char} (h : schemeChar c = true) :
    schemeChar (Char.toLower c) = true := by
  simp only [schemeChar, Bool.or_eq_true] at h
  rcases h with (((ha | hd) | hp) | hm) | hdot
  · simp only [schemeChar, Bool.or_eq_true]
    exact Or.inl (Or.inl (Or.inl (Or.inl (toLower_isAlpha ha))))
  · simp only [Char.isDigit, Bool.and_eq_true, decide_eq_true_eq] at hd
    have hn : 48 ≤ c.toNat ∧ c.toNat ≤ 57 := ⟨hd.1, hd.2⟩
    have hl : Char.toLower c = c := toLower_of_not_upper (by omega)
    rw [hl]
    simp only [schemeChar, Bool.or_eq_true]
    refine Or.inl (Or.inl (Or.inl (Or.inr ?_)))
    simp only [Char.isDigit, Bool.and_eq_true, decide_eq_true_eq]
    exact ⟨hn.1, hn.2⟩
  · have hc : c = '+' := by simpa using hp
    subst hc
    decide
  · have hc : c = '-' := by simpa using hm
    subst hc
    decide
  · have hc : c = '.' := by simpa using hdot
    subst hc
    decide

/-- Lowercasing a scheme never produces a colon. -/
theorem toLower_ne_colon {c : Char} (h : schemeChar c = true) :
    Char.toLower c ≠ ':' := by
  intro he
  have h2 := schemeChar_toLower h
  rw [he] at h2
  exact absurd h2 (by decide)

/-- Lowercasing a list of characters is idempotent. -/
theorem map_toLower_idem (l : List Char) :
    (l.map Char.toLower).map Char.toLower = l.map Char.toLower := by
  rw [List.map_map]
  exact List.map_congr_left (fun a _ => toLower_toLower a)

/-- Lowercasing preserves `all schemeChar`. -/
theorem all_schemeChar_toLower {l : List Char} (h : l.all schemeChar = true) :
    (l.map Char.toLower).all schemeChar = true := by
  rw [List.all_eq_true] at h ⊢
  intro x hx
  obtain ⟨a, ha, rfl⟩ := List.mem_map.mp hx
  exact schemeChar_toLower (h a ha)

/-- A list of scheme characters contains no colon. -/
theorem colon_not_mem_scheme {l : List Char} (h : l.all schemeChar = true) :
    ':' ∉ l := by
  intro hc
  rw [List.all_eq_true] at h
  exact absurd (h ':' hc) (by decide)

/-- `breakAtChar` decomposes its input at the separator, which does not occur
before the split point. -/
theorem breakAtChar_eq {c : Char} :
    ∀ {l a b : List Char}, breakAtChar c l = some (a, b) →
      l = a ++ c :: b ∧ c ∉ a := by
  intro l
  induction l with
  | nil => intro a b h; simp [breakAtChar] at h
  | cons x xs ih =>
    intro a b h
    rw [breakAtChar] at h
    by_cases hx : x = c
    · rw [if_pos hx] at h
      rw [Option.some_inj] at h
      obtain ⟨rfl, rfl⟩ := Prod.mk.injEq .. ▸ (Prod.ext_iff.mp h.symm)
      constructor
      · rw [hx]
        rfl
      · simp
    · rw [if_neg hx] at h
      rw [Option.map_eq_some'] at h
      obtain ⟨⟨a0, b0⟩, hb, hab⟩ := h
      obtain ⟨h1, h2⟩ := ih hb
      rw [Prod.ext_iff] at hab
      obtain ⟨ha, hb2⟩ := hab
      dsimp only at ha hb2
      rw [← ha, ← hb2]
      constructor
      · rw [List.cons_append, h1]
      · intro hmem
        rcases List.mem_cons.mp hmem with h3 | h3
        · exact hx h3.symm
        · exact h2 h3

/-- `breakAtChar` misses exactly when the separator is absent. -/
theorem breakAtChar_none {c : Char} :
    ∀ {l : List Char}, breakAtChar c l = none ↔ c ∉ l := by
  intro l
  induction l with
  | nil => simp [breakAtChar]
  | cons x xs ih =>
    rw [breakAtChar]
    by_cases hx : x = c
    · rw [if_pos hx]
      simp [hx]
    · rw [if_neg hx]
      simp only [Option.map_eq_none', List.mem_cons]
      rw [ih]
      constructor
      · intro h hc
        rcases hc with hc | hc
        · exact hx hc.symm
        · exact h hc
      · intro h hc
        exact h (Or.inr hc)

/-- `breakAtChar` finds the separator after a clean prefix. -/
theorem breakAtChar_append {c : Char} :
    ∀ {a : List Char} (b : List Char), c ∉ a →
      breakAtChar c (a ++ c :: b) = some (a, b) := by
  intro a
  induction a with
  | nil =>
    intro b _
    rw [List.nil_append, breakAtChar, if_pos rfl]
  | cons x xs ih =>
    intro b h
    have hx : ¬ x = c := fun he => h (by rw [he]; exact List.mem_cons_self _ _)
    rw [List.cons_append, breakAtChar, if_neg hx,
      ih b (fun hc => h (List.mem_cons_of_mem _ hc))]
    rfl

/-- `rstripSlash` returns a prefix of its input. -/
theorem rstripSlash_front (l : List Char) :
    List.IsPrefix (rstripSlash l) l := by
  have h3 : (rstripSlash l).reverse =
      List.dropWhile (fun c => decide (c = '/')) l.reverse := by
    simp [rstripSlash]
  exact List.reverse_suffix.mp (h3 ▸ List.dropWhile_suffix _)

/-- A nonempty `rstripSlash` result does not end in a slash. -/
theorem rstripSlash_getLast {l : List Char} (h : rstripSlash l ≠ []) :
    (rstripSlash l).getLast? ≠ some '/' := by
  rw [rstripSlash, List.getLast?_reverse]
  have hne : List.dropWhile (fun c => decide (c = '/')) l.reverse ≠ [] := by
    intro h0
    apply h
    rw [rstripSlash, h0]
    rfl
  have hh := List.head_dropWhile_not (fun c => decide (c = '/')) l.reverse hne
  rw [List.head?_eq_head hne]
  intro hcon
  rw [Option.some_inj] at hcon
  rw [hcon] at hh
  simp at hh

/-- Stripping trailing slashes ignores a prefix that ends in a non-slash. -/
theorem rstripSlash_append {a b : List Char} {ch : Char}
    (hla : a.getLast? = some ch) (hch : ch ≠ '/') :
    rstripSlash (a ++ b) = a ++ rstripSlash b := by
  have harev : a.reverse.head? = some ch := by rw [List.head?_reverse, hla]
  obtain ⟨t, ht⟩ : ∃ t, a.reverse = ch :: t := by
    cases har : a.reverse with
    | nil => rw [har] at harev; simp at harev
    | cons x t =>
      rw [har, List.head?_cons, Option.some_inj] at harev
      exact ⟨t, by rw [harev]⟩
  have hpch : (decide (ch = '/')) = false := by simp [hch]
  rw [rstripSlash, rstripSlash, List.reverse_append, ht, List.dropWhile_append]
  by_cases hbe :
      (List.dropWhile (fun c => decide (c = '/')) b.reverse).isEmpty = true
  · rw [if_pos hbe]
    rw [List.dropWhile_cons, hpch]
    have hbnil : List.dropWhile (fun c => decide (c = '/')) b.reverse = [] :=
      List.isEmpty_iff.mp hbe
    rw [if_neg (by simp)]
    rw [hbnil, List.reverse_nil, List.append_nil]
    rw [← ht, List.reverse_reverse]
  · rw [if_neg hbe]
    rw [List.reverse_append, ← ht, List.reverse_reverse]

/-- Elements of `rstripSlash l` come from `l`. -/
theorem rstripSlash_mem {l : List Char} {x : Char} (h : x ∈ rstripSlash l) :
    x ∈ l :=
  ((rstripSlash_front l).sublist.subset) h

/-- A nonempty `rstripSlash` result starts like its input. -/
theorem rstripSlash_head {l : List Char} (h : rstripSlash l ≠ []) :
    (rstripSlash l).head? = l.head? := by
  obtain ⟨t, ht⟩ := rstripSlash_front l
  conv_rhs => rw [← ht]
  rw [List.head?_append, List.head?_eq_head h]
  rfl

/-- `geturl` on a fragment-free parse with nonempty netloc, no params and no
query serializes to the scheme/netloc prefix followed by the path. -/
theorem urlunparse_hostA (s nl p : List Char) (hnl : nl ≠ [])
    (hp : p = [] ∨ ∃ t, p = '/' :: t) :
    urlunparseL ⟨s, nl, p, [], [], []⟩ = hostA s nl ++ p := by
  rcases hp with rfl | ⟨t, rfl⟩
  · by_cases hs : s = []
    · subst hs
      simp [urlunparseL, urlunsplitL, hostA, hnl]
    · simp [urlunparseL, urlunsplitL, hostA, hnl, hs]
  · by_cases hs : s = []
    · subst hs
      simp [urlunparseL, urlunsplitL, hostA, hnl]
    · simp [urlunparseL, urlunsplitL, hostA, hnl, hs]

/-- `urlsplit` netloc extraction after `//`. -/
theorem extractNetloc_slash (rest : List Char) :
    extractNetloc ('/' :: '/' :: rest) =
      (rest.takeWhile (fun c => ¬ netlocEnd c),
        rest.dropWhile (fun c => ¬ netlocEnd c)) := rfl

/-- Either the input does not start with `//` (no netloc), or it does. -/
theorem extractNetloc_cases (r : List Char) :
    extractNetloc r = ([], r) ∨ ∃ rest, r = '/' :: '/' :: rest := by
  unfold extractNetloc
  split
  · next rest => exact Or.inr ⟨rest, rfl⟩
  · next => exact Or.inl rfl

/-- `urlsplit` scheme extraction: either no scheme is recognized, or the
input splits at the first colon with a well-formed scheme in front. -/
theorem extractScheme_eq (l : List Char) :
    extractScheme l = ([], l) ∨
    ∃ pre post, breakAtChar ':' l = some (pre, post) ∧
      (∃ hd tl, pre = hd :: tl ∧ hd.isAlpha = true) ∧
      pre.all schemeChar = true ∧
      extractScheme l = (pre.map Char.toLower, post) := by
  unfold extractScheme
  cases hb : breakAtChar ':' l with
  | none => exact Or.inl rfl
  | some pr =>
    obtain ⟨pre, post⟩ := pr
    dsimp only
    cases pre with
    | nil => exact Or.inl rfl
    | cons hd tl =>
      dsimp only
      by_cases hcond : hd.isAlpha ∧ (hd :: tl).all schemeChar
      · refine Or.inr ⟨hd :: tl, post, rfl, ⟨hd, tl, rfl, hcond.1⟩, hcond.2, ?_⟩
        rw [if_pos hcond]
      · rw [if_neg hcond]
        exact Or.inl rfl

/-- A scheme-less serialized URL starts with `/`, so no scheme is parsed. -/
theorem extractScheme_slash (l : List Char) :
    extractScheme ('/' :: l) = ([], '/' :: l) := by
  unfold extractScheme
  cases hb : breakAtChar ':' ('/' :: l) with
  | none => rfl
  | some pr =>
    obtain ⟨a, b⟩ := pr
    obtain ⟨h1, _⟩ := breakAtChar_eq hb
    cases a with
    | nil => rfl
    | cons x a2 =>
      rw [List.cons_append] at h1
      have hx : x = '/' := (List.head_eq_of_cons_eq h1).symm
      subst hx
      dsimp only
      rw [if_neg (fun hc => absurd hc.1 (by decide))]

/-- `takeWhile`/`dropWhile` over a satisfying block followed by a failing
head. -/
theorem takeWhile_all_append {p : Char → Bool} {a : List Char} (b : List Char)
    (ha : ∀ x ∈ a, p x = true)
    (hb : b = [] ∨ ∃ h0 t, b = h0 :: t ∧ p h0 = false) :
    (a ++ b).takeWhile p = a ∧ (a ++ b).dropWhile p = b := by
  induction a with
  | nil =>
    rw [List.nil_append]
    rcases hb with rfl | ⟨h0, t, rfl, hph⟩
    · exact ⟨rfl, rfl⟩
    · rw [List.takeWhile_cons, List.dropWhile_cons, hph]
      constructor <;> simp
  | cons x xs ih =>
    have hx := ha x (List.mem_cons_self _ _)
    have ih2 := ih (fun y hy => ha y (List.mem_cons_of_mem _ hy))
    rw [List.cons_append, List.takeWhile_cons, List.dropWhile_cons, hx]
    constructor
    · simp [ih2.1]
    · simp [ih2.2]

/-- Netloc reparse: the netloc block (no `/`, `?`, `#`) is fully consumed and
the path (empty or `/`-headed) is left over. -/
theorem extractNetloc_append {nl p1 : List Char}
    (hnlall : ∀ x ∈ nl, netlocEnd x = false)
    (hp : p1 = [] ∨ ∃ t, p1 = '/' :: t) :
    extractNetloc ('/' :: '/' :: (nl ++ p1)) = (nl, p1) := by
  rw [extractNetloc_slash]
  have hb : p1 = [] ∨ ∃ h0 t, p1 = h0 :: t ∧
      (fun c => ¬ netlocEnd c : Char → Bool) h0 = false := by
    rcases hp with rfl | ⟨t, rfl⟩
    · exact Or.inl rfl
    · exact Or.inr ⟨'/', t, rfl, by simp [netlocEnd]⟩
  have ha : ∀ x ∈ nl, (fun c => ¬ netlocEnd c : Char → Bool) x = true := by
    intro x hx
    simp [hnlall x hx]
  obtain ⟨h1, h2⟩ := takeWhile_all_append p1 ha hb
  rw [h1, h2]

/-- Reparsing a serialized URL (nonempty slash-free netloc, lowercase scheme,
`/`-headed or empty path free of `#`, `?` and `;`) recovers its parts. -/
theorem urlparse_hostA (s nl p : List Char)
    (hs : s = [] ∨ (s.map Char.toLower = s ∧ s.all schemeChar = true ∧
      ∃ hd tl, s = hd :: tl ∧ hd.isAlpha = true))
    (hnlall : ∀ x ∈ nl, netlocEnd x = false)
    (hp : p = [] ∨ ∃ t, p = '/' :: t)
    (hph : '#' ∉ p) (hpq : '?' ∉ p) (hpsemi : ';' ∉ p) :
    urlparseL (hostA s nl ++ p) = ⟨s, nl, p, [], [], []⟩ := by
  have hsch : extractScheme (hostA s nl ++ p) =
      (s, '/' :: '/' :: (nl ++ p)) := by
    rcases hs with rfl | ⟨hmap, hall, hd, tl, hpre, hal⟩
    · have h0 : hostA [] nl ++ p = '/' :: '/' :: (nl ++ p) := by
        simp [hostA]
      rw [h0]
      exact extractScheme_slash _
    · have heq : hostA s nl ++ p = s ++ ':' :: ('/' :: '/' :: (nl ++ p)) := by
        rw [hostA, if_pos (by rw [hpre]; simp)]
        simp
      rw [heq]
      have hcolon : ':' ∉ s := colon_not_mem_scheme hall
      unfold extractScheme
      rw [breakAtChar_append _ hcolon]
      rw [hpre]
      dsimp only
      rw [if_pos ⟨hal, by rw [← hpre]; exact hall⟩]
      rw [← hpre, hmap]
  have hnet := extractNetloc_append hnlall hp
  simp only [urlparseL]
  rw [hsch]
  dsimp only
  rw [hnet]
  dsimp only
  unfold splitFragment
  rw [breakAtChar_none.mpr hph]
  dsimp only
  unfold splitQuery
  rw [breakAtChar_none.mpr hpq]
  dsimp only
  rw [if_neg (fun hc => hpsemi hc.2)]

/-- Shape of an `urlparse` result for an input with no `?` and no `;` whose
netloc is nonempty: no params, no query, slash-free netloc, `/`-headed or
empty path free of `#`, `?`, `;`, and a scheme fixed by lowercasing. -/
theorem urlparse_shape (l : List Char) (hq : '?' ∉ l) (hsemi : ';' ∉ l)
    (hnl : (urlparseL l).netloc ≠ []) :
    ∃ s nl p frag,
      urlparseL l = ⟨s, nl, p, [], [], frag⟩ ∧
      (s = [] ∨ (s.map Char.toLower = s ∧ s.all schemeChar = true ∧
        ∃ hd tl, s = hd :: tl ∧ hd.isAlpha = true)) ∧
      nl ≠ [] ∧ (∀ x ∈ nl, netlocEnd x = false) ∧
      (p = [] ∨ ∃ t, p = '/' :: t) ∧
      '#' ∉ p ∧ '?' ∉ p ∧ ';' ∉ p := by
  have hmain : ∃ s r1, extractScheme l = (s, r1) ∧
      (s = [] ∨ (s.map Char.toLower = s ∧ s.all schemeChar = true ∧
        ∃ hd tl, s = hd :: tl ∧ hd.isAlpha = true)) ∧
      '?' ∉ r1 ∧ ';' ∉ r1 := by
    rcases extractScheme_eq l with hsch | ⟨pre, post, hbr, hex, hall, hsch⟩
    · exact ⟨[], l, hsch, Or.inl rfl, hq, hsemi⟩
    · obtain ⟨hleq, _⟩ := breakAtChar_eq hbr
      refine ⟨pre.map Char.toLower, post, hsch, Or.inr ⟨map_toLower_idem pre,
        all_schemeChar_toLower hall, ?_⟩, ?_, ?_⟩
      · obtain ⟨hd, tl, hpre2, hal⟩ := hex
        exact ⟨Char.toLower hd, tl.map Char.toLower, by rw [hpre2]; rfl,
          toLower_isAlpha hal⟩
      · intro hc
        exact hq (by
          rw [hleq]
          exact List.mem_append_right _ (List.mem_cons_of_mem _ hc))
      · intro hc
        exact hsemi (by
          rw [hleq]
          exact List.mem_append_right _ (List.mem_cons_of_mem _ hc))
  obtain ⟨s, r1, hse, hsprop, hq1, hsemi1⟩ := hmain
  have hnetproj : (urlparseL l).netloc = (extractNetloc r1).1 := by
    simp only [urlparseL]
    rw [hse]
  rcases extractNetloc_cases r1 with hne | ⟨rest, hr1⟩
  · rw [hnetproj, hne] at hnl
    exact absurd rfl hnl
  · subst hr1
    have hqrest : '?' ∉ rest :=
      fun hc => hq1 (List.mem_cons_of_mem _ (List.mem_cons_of_mem _ hc))
    have hsemirest : ';' ∉ rest :=
      fun hc => hsemi1 (List.mem_cons_of_mem _ (List.mem_cons_of_mem _ hc))
    have hnlall : ∀ x ∈ rest.takeWhile (fun c => ¬ netlocEnd c),
        netlocEnd x = false := by
      intro x hx
      have := List.mem_takeWhile_imp hx
      simpa using this
    have hr2sub : ∀ x ∈ rest.dropWhile (fun c => ¬ netlocEnd c), x ∈ rest :=
      fun x hx => (List.dropWhile_suffix _).sublist.subset hx
    have hq2 : '?' ∉ rest.dropWhile (fun c => ¬ netlocEnd c) :=
      fun hc => hqrest (hr2sub _ hc)
    have hsemi2 : ';' ∉ rest.dropWhile (fun c => ¬ netlocEnd c) :=
      fun hc => hsemirest (hr2sub _ hc)
    have hr2head : ∀ h0 t,
        rest.dropWhile (fun c => ¬ netlocEnd c) = h0 :: t →
        h0 = '/' ∨ h0 = '?' ∨ h0 = '#' := by
      intro h0 t hh
      have hne2 : rest.dropWhile (fun c => ¬ netlocEnd c) ≠ [] := by
        rw [hh]
        simp
      have := List.head_dropWhile_not (fun c => ¬ netlocEnd c) rest hne2
      have hh2 : (rest.dropWhile (fun c => ¬ netlocEnd c)).head? = some h0 := by
        rw [hh]
        rfl
      have hhead := List.head?_eq_head hne2
      rw [hh2] at hhead
      have hhead2 : (rest.dropWhile (fun c => ¬ netlocEnd c)).head hne2 = h0 :=
        (Option.some_inj.mp hhead).symm
      rw [hhead2] at this
      simp only [decide_not, netlocEnd, Bool.or_eq_true, beq_iff_eq] at this
      simp at this
      tauto
    have hnl0 : (extractNetloc ('/' :: '/' :: rest)).1 ≠ [] := by
      rw [← hnetproj]
      exact hnl
    rw [extractNetloc_slash] at hnl0
    dsimp only at hnl0
    cases hfr : breakAtChar '#' (rest.dropWhile (fun c => ¬ netlocEnd c)) with
    | none =>
      have hph : '#' ∉ rest.dropWhile (fun c => ¬ netlocEnd c) :=
        breakAtChar_none.mp hfr
      have hpshape : rest.dropWhile (fun c => ¬ netlocEnd c) = [] ∨
          ∃ t, rest.dropWhile (fun c => ¬ netlocEnd c) = '/' :: t := by
        cases hr2 : rest.dropWhile (fun c => ¬ netlocEnd c) with
        | nil => exact Or.inl rfl
        | cons h0 t =>
          rcases hr2head h0 t hr2 with h | h | h
          · exact Or.inr ⟨t, by rw [h]⟩
          · exfalso
            apply hq2
            rw [hr2, ← h]
            exact List.mem_cons_self _ _
          · exfalso
            apply hph
            rw [hr2, ← h]
            exact List.mem_cons_self _ _
      refine ⟨s, rest.takeWhile (fun c => ¬ netlocEnd c),
        rest.dropWhile (fun c => ¬ netlocEnd c), [], ?_, hsprop, hnl0,
        hnlall, hpshape, hph, hq2, hsemi2⟩
      simp only [urlparseL]
      rw [hse]
      dsimp only
      rw [extractNetloc_slash]
      dsimp only
      unfold splitFragment
      rw [hfr]
      dsimp only
      unfold splitQuery
      rw [breakAtChar_none.mpr hq2]
      dsimp only
      rw [if_neg (fun hc => hsemi2 hc.2)]
    | some pr =>
      obtain ⟨pa, pb⟩ := pr
      obtain ⟨hdec, hpna⟩ := breakAtChar_eq hfr
      have hpa_sub : ∀ x ∈ pa, x ∈ rest.dropWhile (fun c => ¬ netlocEnd c) := by
        intro x hx
        rw [hdec]
        exact List.mem_append_left _ hx
      have hqpa : '?' ∉ pa := fun hc => hq2 (hpa_sub _ hc)
      have hsemipa : ';' ∉ pa := fun hc => hsemi2 (hpa_sub _ hc)
      have hpshape : pa = [] ∨ ∃ t, pa = '/' :: t := by
        cases hpa : pa with
        | nil => exact Or.inl rfl
        | cons h0 t =>
          have hh : rest.dropWhile (fun c => ¬ netlocEnd c) =
              h0 :: (t ++ '#' :: pb) := by
            rw [hdec, hpa, List.cons_append]
          rcases hr2head h0 (t ++ '#' :: pb) hh with h | h | h
          · exact Or.inr ⟨t, by rw [h]⟩
          · exfalso
            apply hqpa
            rw [hpa, ← h]
            exact List.mem_cons_self _ _
          · exfalso
            apply hpna
            rw [hpa, ← h]
            exact List.mem_cons_self _ _
      refine ⟨s, rest.takeWhile (fun c => ¬ netlocEnd c), pa, pb, ?_, hsprop,
        hnl0, hnlall, hpshape, hpna, hqpa, hsemipa⟩
      simp only [urlparseL]
      rw [hse]
      dsimp only
      rw [extractNetloc_slash]
      dsimp only
      unfold splitFragment
      rw [hfr]
      dsimp only
      unfold splitQuery
      rw [breakAtChar_none.mpr hqpa]
      dsimp only
      rw [if_neg (fun hc => hsemipa hc.2)]

/-- Normalization is idempotent on inputs with no `?`, no `;` and a nonempty
netloc: the second pass re-parses the first pass's output into the same
scheme and netloc with an already-stripped path, and the strip condition can
no longer fire. -/
theorem normalizeL_idem (l : List Char) (hq : '?' ∉ l) (hsemi : ';' ∉ l)
    (hnl : (urlparseL l).netloc ≠ []) :
    normalizeL (normalizeL l) = normalizeL l := by
  obtain ⟨s, nl, p, frag, hparse, hsprop, hnl0, hnlall, hpshape, hph, hpq,
    hpsemi⟩ := urlparse_shape l hq hsemi hnl
  have hN : urlunparseL { urlparseL l with fragment := [] } =
      hostA s nl ++ p := by
    rw [hparse]
    exact urlunparse_hostA s nl p hnl0 hpshape
  obtain ⟨ch, hch⟩ : ∃ ch, nl.getLast? = some ch := by
    cases hgl : nl.getLast? with
    | none => exact absurd (List.getLast?_eq_none_iff.mp hgl) hnl0
    | some c0 => exact ⟨c0, rfl⟩
  have hchne : ch ≠ '/' := by
    intro he
    have h2 := hnlall ch (List.mem_of_mem_getLast? hch)
    rw [he] at h2
    exact absurd h2 (by decide)
  have hch2 : (hostA s nl).getLast? = some ch := by
    simp only [hostA, List.getLast?_append]
    have h3 : ('/' :: '/' :: nl).getLast? = some ch := by
      rw [show ('/' :: '/' :: nl) = ['/', '/'] ++ nl from rfl,
        List.getLast?_append, hch]
      rfl
    rw [h3]
    rfl
  by_cases hstrip : (hostA s nl ++ p).getLast? = some '/' ∧ p ≠ ['/']
  · have hp1shape : rstripSlash p = [] ∨ ∃ t, rstripSlash p = '/' :: t := by
      cases hrp : rstripSlash p with
      | nil => exact Or.inl rfl
      | cons a t =>
        right
        have hne : rstripSlash p ≠ [] := by rw [hrp]; simp
        have hhead := rstripSlash_head hne
        have hpne : p ≠ [] := by
          intro h0
          rw [h0] at hrp
          simp [rstripSlash] at hrp
        rcases hpshape with h0 | ⟨t0, ht0⟩
        · exact absurd h0 hpne
        · have ha : a = '/' := by
            rw [hrp, List.head?_cons, ht0, List.head?_cons] at hhead
            exact Option.some_inj.mp hhead
          exact ⟨t, by rw [ha]⟩
    have hph1 : '#' ∉ rstripSlash p := fun hc => hph (rstripSlash_mem hc)
    have hpq1 : '?' ∉ rstripSlash p := fun hc => hpq (rstripSlash_mem hc)
    have hpsemi1 : ';' ∉ rstripSlash p := fun hc => hpsemi (rstripSlash_mem hc)
    have hparse2 := urlparse_hostA s nl (rstripSlash p) hsprop hnlall
      hp1shape hph1 hpq1 hpsemi1
    have hN2 : urlunparseL
        { urlparseL (hostA s nl ++ rstripSlash p) with fragment := [] } =
        hostA s nl ++ rstripSlash p := by
      rw [hparse2]
      exact urlunparse_hostA s nl (rstripSlash p) hnl0 hp1shape
    have hstrip2 : ¬((hostA s nl ++ rstripSlash p).getLast? = some '/' ∧
        rstripSlash p ≠ ['/']) := by
      intro hcon
      by_cases hp1e : rstripSlash p = []
      · rw [hp1e, List.append_nil, hch2] at hcon
        exact hchne (Option.some_inj.mp hcon.1)
      · have hl2 : (hostA s nl ++ rstripSlash p).getLast? =
            (rstripSlash p).getLast? := by
          rw [List.getLast?_append]
          cases hgl : (rstripSlash p).getLast? with
          | none => exact absurd (List.getLast?_eq_none_iff.mp hgl) hp1e
          | some y => rfl
        rw [hl2] at hcon
        exact rstripSlash_getLast hp1e hcon.1
    have hn2 : normalizeL (hostA s nl ++ rstripSlash p) =
        hostA s nl ++ rstripSlash p := by
      simp only [normalizeL]
      rw [hN2, hparse2]
      rw [if_neg hstrip2]
    have hr : rstripSlash (hostA s nl ++ p) = hostA s nl ++ rstripSlash p :=
      rstripSlash_append hch2 hchne
    have hfirst : normalizeL l = rstripSlash (hostA s nl ++ p) := by
      simp only [normalizeL]
      rw [hN, hparse]
      rw [if_pos hstrip]
    rw [hfirst, hr]
    exact hn2
  · have hparse2 := urlparse_hostA s nl p hsprop hnlall hpshape hph hpq hpsemi
    have hN2 : urlunparseL
        { urlparseL (hostA s nl ++ p) with fragment := [] } =
        hostA s nl ++ p := by
      rw [hparse2]
      exact urlunparse_hostA s nl p hnl0 hpshape
    have hn2 : normalizeL (hostA s nl ++ p) = hostA s nl ++ p := by
      simp only [normalizeL]
      rw [hN2, hparse2]
      rw [if_neg hstrip]
    have hfirst : normalizeL l = hostA s nl ++ p := by
      simp only [normalizeL]
      rw [hN, hparse]
      rw [if_neg hstrip]
    rw [hfirst]
    exact hn2

/-- C8 counterexample: a `/` inside the query survives serialization, gets
stripped by the first pass (dropping the `?`-ended slash), and the second
pass then drops the now-empty query marker — normalization is not
idempotent on `http://a.com/x?/`. -/
theorem C8_counterexample :
    normalize_url (normalize_url "http://a.com/x?/") ≠
      normalize_url "http://a.com/x?/" := by
  decide

/-- C8 amended: for every URL with no `?` and no `;` whose parse has a
nonempty netloc, normalization is idempotent:
`normalize(normalize(u)) = normalize(u)`. -/
theorem C8_normalize_idempotent_amended (u : String)
    (hq : '?' ∉ u.data) (hsemi : ';' ∉ u.data)
    (hnl : (urlparseL u.data).netloc ≠ []) :
    normalize_url (normalize_url u) = normalize_url u := by
  show String.mk (normalizeL (normalizeL u.data)) = String.mk (normalizeL u.data)
  exact congrArg String.mk (normalizeL_idem u.data hq hsemi hnl)

/-- C8 witness: the amended idempotence theorem applied to
`https://a.com/x/`. -/
theorem C8_witness :
    '?' ∉ "https://a.com/x/".data ∧ ';' ∉ "https://a.com/x/".data ∧
    (urlparseL "https://a.com/x/".data).netloc ≠ [] ∧
    normalize_url (normalize_url "https://a.com/x/") =
      normalize_url "https://a.com/x/" :=
  ⟨by decide, by decide, by decide,
    C8_normalize_idempotent_amended "https://a.com/x/" (by decide) (by decide)
      (by decide)⟩

end Scraper
